import Mathlib

/-!
# Verification of the minlz-rs S2/Snappy codec

A shallow embedding of the core of the `minlz-rs` repository (an S2/Snappy
compressor/decompressor written in Rust) together with theorems settling the
specification claims about it.

Conventions of the embedding:

* Bytes are natural numbers; byte sequences are `List Nat`.  Values produced
  by the code are masked (`% 256`, `% 2 ^ 32`, `% 2 ^ 64`) exactly where the
  Rust source casts (`as u8`, `as u32`, `as u64`).
* Rust functions that write into a caller-supplied `dst` slice and return the
  number of bytes written are modelled as functions returning the list of
  bytes written.
* A Rust out-of-bounds panic is modelled by `Option`: `none` is a panic.
  The decoder (`s2Decode` and friends) is embedded with fully checked
  accesses, so totality plus a `≠ none` theorem captures panic-freedom.
* The encoders' hash tables (`vec![0u32; size]` in Rust) are modelled as
  total functions `Nat → Nat` initialised to `0`, updated pointwise.
* The encoders' unbounded loops take a fuel parameter; running out of fuel
  yields `none`.  All theorems about encoder outputs are conditioned on the
  encoder returning a value, and concrete evaluations show the fuel given is
  sufficient on those inputs.
* `i64` values (used by the seek index) are modelled as `Int`; `i64` division
  (which truncates toward zero) is `Int.tdiv`.
-/

namespace MinLZ

/-- The error enum from `error.rs` (the `InvalidInput` message is dropped). -/
inductive Err where
  | corrupt
  | tooLarge
  | unsupported
  | crcMismatch
  | bufferTooSmall
  | invalidInput
  deriving DecidableEq, Repr

/-- Byte strings. -/
abbrev Bytes := List Nat

/-- `load32` from `encode.rs`: little-endian `u32` read at `offset`.
Encoder-side call sites are in bounds; out-of-range bytes read as `0`. -/
def load32 (data : Bytes) (offset : Nat) : Nat :=
  data.getD offset 0 + 256 * data.getD (offset + 1) 0 +
    65536 * data.getD (offset + 2) 0 + 16777216 * data.getD (offset + 3) 0

/-- `load64` from `encode.rs`: little-endian `u64` read at `offset`. -/
def load64 (data : Bytes) (offset : Nat) : Nat :=
  load32 data offset + 4294967296 * load32 data (offset + 4)

/-- `trailing_zeros` of a nonzero `u64` (`u64::trailing_zeros` in Rust),
divided by 8 it counts the matching low bytes of an XOR difference. -/
def trailingZeros64Go (x : Nat) : Nat → Nat
  | 0 => 64
  | k + 1 => if x % 2 == 1 then 64 - (k + 1) else trailingZeros64Go (x / 2) k

/-- See `trailingZeros64Go`. -/
def trailingZeros64 (x : Nat) : Nat := trailingZeros64Go x 64

/-! ## Varint codec (`varint.rs`) -/

/-- The loop of `decode_varint` from `varint.rs`. -/
def decodeVarintLoop : Bytes → Nat → Nat → Nat → Except Err (Nat × Nat)
  | [], _, _, _ => .error .corrupt
  | b :: rest, i, value, shift =>
    if i ≥ 10 then .error .corrupt
    else if b < 0x80 then
      if i == 9 && b > 1 then .error .corrupt
      else .ok (value ||| ((b <<< shift) % 2 ^ 64), i + 1)
    else decodeVarintLoop rest (i + 1) (value ||| (((b &&& 0x7f) <<< shift) % 2 ^ 64)) (shift + 7)

/-- `decode_varint` from `varint.rs`: returns `(value, bytes_read)`. -/
def decodeVarint (src : Bytes) : Except Err (Nat × Nat) :=
  decodeVarintLoop src 0 0 0

/-- The loop of `encode_varint` from `varint.rs`; the countdown only bounds
the iteration count (ten seven-bit groups always exhaust a `u64`). -/
def encodeVarintGo : Nat → Nat → Bytes
  | 0, value => [value]
  | k + 1, value =>
    if value ≥ 0x80 then (value % 256 ||| 0x80) :: encodeVarintGo k (value >>> 7)
    else [value]

/-- `encode_varint` from `varint.rs` (the bytes written; the argument is a
`u64`). -/
def encodeVarint (value : Nat) : Bytes := encodeVarintGo 10 (value % 2 ^ 64)

/-! ## Emitters (`encode.rs`) -/

/-- `emit_literal` from `encode.rs`: header plus the literal bytes. -/
def emitLiteral (lit : Bytes) : Bytes :=
  if lit.length == 0 then []
  else
    let n := lit.length - 1
    let hdr : Bytes :=
      if n ≤ 59 then [(n <<< 2) % 256]
      else if n ≤ 255 then [60 <<< 2, n % 256]
      else if n ≤ 65535 then [61 <<< 2, n % 256, (n >>> 8) % 256]
      else if n ≤ 16777215 then [62 <<< 2, n % 256, (n >>> 8) % 256, (n >>> 16) % 256]
      else [63 <<< 2, n % 2 ^ 32 % 256, ((n % 2 ^ 32) >>> 8) % 256,
        ((n % 2 ^ 32) >>> 16) % 256, ((n % 2 ^ 32) >>> 24) % 256]
    hdr ++ lit

/-- Little-endian bytes of `offset as u32` (`(offset as u32).to_le_bytes()`). -/
def le32 (offset : Nat) : Bytes :=
  [offset % 256, (offset >>> 8) % 256, (offset >>> 16) % 256, (offset >>> 24) % 256]

/-- `emit_repeat` from `encode.rs`. -/
def emitRepeat (offset length : Nat) : Bytes :=
  let len := length - 4
  if len ≤ 4 then [(len <<< 2 ||| 1) % 256, 0]
  else if len < 8 ∧ offset < 2048 then
    [((offset >>> 8) <<< 5 ||| len <<< 2 ||| 1) % 256, offset % 256]
  else if len < (1 <<< 8) + 4 then
    [5 <<< 2 ||| 1, 0, (len - 4) % 256]
  else if len < (1 <<< 16) + (1 <<< 8) then
    [6 <<< 2 ||| 1, 0, (len - (1 <<< 8)) % 256, ((len - (1 <<< 8)) >>> 8) % 256]
  else
    [7 <<< 2 ||| 1, 0, (len - (1 <<< 16)) % 256, ((len - (1 <<< 16)) >>> 8) % 256,
      ((len - (1 <<< 16)) >>> 16) % 256]

/-- `emit_copy4` from `encode.rs`. -/
def emitCopy4 (offset length : Nat) : Bytes :=
  if length > 64 then
    let first := ((63 <<< 2 ||| 3) % 256) :: le32 offset
    let remaining := length - 64
    if remaining ≥ 4 then first ++ emitRepeat offset remaining
    else if remaining == 0 then first
    else first ++ (((remaining - 1) <<< 2 ||| 3) % 256) :: le32 offset
  else
    if length == 0 then []
    else (((length - 1) <<< 2 ||| 3) % 256) :: le32 offset

/-- `emit_copy` from `encode.rs` (repeat-aware copy emission). -/
def emitCopy (offset length : Nat) : Bytes :=
  if offset ≥ 65536 then emitCopy4 offset length
  else if length > 64 then
    if offset < 2048 then
      [((offset >>> 8) <<< 5 ||| (8 - 4) <<< 2 ||| 1) % 256, offset % 256] ++
        emitRepeat offset (length - 8)
    else
      [(59 <<< 2 ||| 2) % 256, offset % 256, (offset >>> 8) % 256] ++
        emitRepeat offset (length - 60)
  else if length ≥ 12 ∨ offset ≥ 2048 then
    [((length - 1) <<< 2 ||| 2) % 256, offset % 256, (offset >>> 8) % 256]
  else
    [((offset >>> 8) <<< 5 ||| (length - 4) <<< 2 ||| 1) % 256, offset % 256]

/-- The body of `emit_copy_no_repeat` from `encode.rs` (Snappy-compatible
emission); each self-call shrinks `length` by at least 56, so the countdown
`length` in the wrapper below always suffices. -/
def emitCopyNoRepeatGo : Nat → Nat → Nat → Bytes
  | 0, _, _ => []
  | k + 1, offset, length =>
    if offset ≥ 65536 then
      if length > 64 then
        let first := ((63 <<< 2 ||| 3) % 256) :: le32 offset
        let remaining := length - 64
        if remaining ≥ 4 then first ++ emitCopyNoRepeatGo k offset remaining
        else if remaining == 0 then first
        else first ++ (((remaining - 1) <<< 2 ||| 3) % 256) :: le32 offset
      else if length == 0 then []
      else (((length - 1) <<< 2 ||| 3) % 256) :: le32 offset
    else if length > 64 then
      [(59 <<< 2 ||| 2) % 256, offset % 256, (offset >>> 8) % 256] ++
        emitCopyNoRepeatGo k offset (length - 60)
    else if length ≥ 12 ∨ offset ≥ 2048 then
      [((length - 1) <<< 2 ||| 2) % 256, offset % 256, (offset >>> 8) % 256]
    else
      [((offset >>> 8) <<< 5 ||| (length - 4) <<< 2 ||| 1) % 256, offset % 256]

/-- `emit_copy_no_repeat` from `encode.rs`. -/
def emitCopyNoRepeat (offset length : Nat) : Bytes :=
  emitCopyNoRepeatGo (length + 1) offset length

/-- The body of `emit_repeat_size` from `encode.rs`; the recursion argument
`left` is positive exactly when `remaining` exceeds `MAX_REPEAT`, and it
shrinks fast, so the countdown `length` in the wrapper always suffices. -/
def emitRepeatSizeGo : Nat → Nat → Nat → Nat
  | 0, _, _ => 0
  | k + 1, offset, length =>
    if length ≤ 4 + 4 ∨ (length < 8 + 4 ∧ offset < 2048) then 2
    else if length < (1 <<< 8) + 4 + 4 then 3
    else if length < (1 <<< 16) + (1 <<< 8) + 4 then 4
    else
      if length - ((1 <<< 16) - 4) > (1 <<< 24) - 1 then
        5 + emitRepeatSizeGo k offset (length - ((1 <<< 16) - 4) - ((1 <<< 24) - 1) + 4)
      else 5

/-- `emit_repeat_size` from `encode.rs` (byte count used by the Best
scorer). -/
def emitRepeatSize (offset length : Nat) : Nat :=
  emitRepeatSizeGo (length + 1) offset length

/-- `emit_copy_size` from `encode.rs` (byte count used by the Best scorer). -/
def emitCopySize (offset length : Nat) : Nat :=
  if offset ≥ 65536 then
    if length > 64 then
      if length - 64 ≥ 4 then 5 + emitRepeatSize offset (length - 64)
      else if length - 64 == 0 then 5 else 10
    else if length == 0 then 0 else 5
  else if length > 64 then
    if offset < 2048 then 2 + emitRepeatSize offset (length - 8)
    else 3 + emitRepeatSize offset (length - 60)
  else if length ≥ 12 ∨ offset ≥ 2048 then 3
  else 2

/-! ## Block decoder (`decode.rs`) -/

/-- `decode_literal_length` from `decode.rs`; `none` models the `src[0]`
read panicking on an empty slice (no call site passes one). -/
def decodeLiteralLength : Bytes → Option (Except Err (Nat × Nat))
  | [] => none
  | b0 :: rest =>
    let x := b0 >>> 2
    if x ≤ 59 then some (.ok (x + 1, 1))
    else if x == 60 then
      match rest with
      | b1 :: _ => some (.ok (b1 + 1, 2))
      | _ => some (.error .corrupt)
    else if x == 61 then
      match rest with
      | b1 :: b2 :: _ => some (.ok (b1 + 256 * b2 + 1, 3))
      | _ => some (.error .corrupt)
    else if x == 62 then
      match rest with
      | b1 :: b2 :: b3 :: _ => some (.ok (b1 + 256 * b2 + 65536 * b3 + 1, 4))
      | _ => some (.error .corrupt)
    else if x == 63 then
      match rest with
      | b1 :: b2 :: b3 :: b4 :: _ =>
        some (.ok (b1 + 256 * b2 + 65536 * b3 + 16777216 * b4 + 1, 5))
      | _ => some (.error .corrupt)
    else some (.error .corrupt)

/-- `decode_copy1` from `decode.rs`: returns `(offset, length, bytes_consumed)`;
`last_offset` is reused when the encoded offset is `0`. -/
def decodeCopy1 : Bytes → Nat → Except Err (Nat × Nat × Nat)
  | b0 :: b1 :: rest, lastOffset =>
    let toffset := ((b0 &&& 0xe0) <<< 3) ||| b1
    let length := (b0 >>> 2) &&& 0x7
    if toffset == 0 then
      if length == 5 then
        match rest with
        | b2 :: _ => .ok (lastOffset, (b2 + 4) + 4, 3)
        | _ => .error .corrupt
      else if length == 6 then
        match rest with
        | b2 :: b3 :: _ => .ok (lastOffset, (b2 + 256 * b3 + (1 <<< 8)) + 4, 4)
        | _ => .error .corrupt
      else if length == 7 then
        match rest with
        | b2 :: b3 :: b4 :: _ => .ok (lastOffset, (b2 + 256 * b3 + 65536 * b4 + (1 <<< 16)) + 4, 5)
        | _ => .error .corrupt
      else .ok (lastOffset, length + 4, 2)
    else .ok (toffset, length + 4, 2)
  | _, _ => .error .corrupt


/-- `dst[d..].copy_from_slice(seg)`: splice `seg` into `dst` at `d`;
`none` models the panic when the write would overrun `dst`. -/
def copyFromSlice (dst : Bytes) (d : Nat) (seg : Bytes) : Option Bytes :=
  if d + seg.length ≤ dst.length then
    some (dst.take d ++ seg ++ dst.drop (d + seg.length))
  else none

/-- The byte-by-byte overlapping-copy loop of `copy_within` in `decode.rs`;
`none` models an out-of-bounds read or write. -/
def copyWithinLoop (dst : Bytes) (d s : Nat) : Nat → Option Bytes
  | 0 => some dst
  | n + 1 =>
    match dst.get? s with
    | none => none
    | some v =>
      if d < dst.length then copyWithinLoop (dst.set d v) (d + 1) (s + 1) n
      else none

/-- `copy_within` from `decode.rs`: copy `length` bytes from `d - offset` to
`d` inside `dst`; byte-by-byte (repeating) when the regions overlap. -/
def copyWithin (dst : Bytes) (d offset length : Nat) : Option Bytes :=
  let srcStart := d - offset
  if offset ≥ length then
    if srcStart + length ≤ dst.length ∧ d + length ≤ dst.length then
      copyFromSlice dst d ((dst.drop srcStart).take length)
    else none
  else copyWithinLoop dst d srcStart length

/-- The slow-path loop of `s2_decode` in `decode.rs`: processes the remaining
tags with strict bounds checks; `none` models a panic. -/
def s2DecodeSlow (src : Bytes) (dst : Bytes) (s d offset : Nat) :
    Nat → Option (Except Err Bytes)
  | 0 => none
  | fuel + 1 =>
  if hs : s < src.length then
    let tag := src.get ⟨s, hs⟩ &&& 0x03
    if tag == 0 then
      match decodeLiteralLength (src.drop s) with
      | none => none
      | some (.error e) => some (.error e)
      | some (.ok (length, consumed)) =>
        let s' := s + consumed
        if s' > src.length ∨ length > dst.length - d ∨ length > src.length - s' then
          some (.error .corrupt)
        else
          match copyFromSlice dst d ((src.drop s').take length) with
          | none => none
          | some dst' => s2DecodeSlow src dst' (s' + length) (d + length) offset fuel
    else if tag == 1 then
      match decodeCopy1 (src.drop s) offset with
      | .error e => some (.error e)
      | .ok (newOffset, length, consumed) =>
        let s' := s + consumed
        if s' > src.length then some (.error .corrupt)
        else if newOffset == 0 ∨ d < newOffset ∨ length > dst.length - d then
          some (.error .corrupt)
        else
          match copyWithin dst d newOffset length with
          | none => none
          | some dst' => s2DecodeSlow src dst' s' (d + length) newOffset fuel
    else if tag == 2 then
      let s' := s + 3
      if s' > src.length then some (.error .corrupt)
      else
        match src.get? (s' - 2), src.get? (s' - 1), src.get? (s' - 3) with
        | some bo0, some bo1, some bl =>
          let newOffset := bo0 + 256 * bo1
          let length := 1 + (bl >>> 2)
          if newOffset == 0 ∨ d < newOffset ∨ length > dst.length - d then
            some (.error .corrupt)
          else
            match copyWithin dst d newOffset length with
            | none => none
            | some dst' => s2DecodeSlow src dst' s' (d + length) newOffset fuel
        | _, _, _ => none
    else
      let s' := s + 5
      if s' > src.length then some (.error .corrupt)
      else
        match src.get? (s' - 4), src.get? (s' - 3), src.get? (s' - 2),
            src.get? (s' - 1), src.get? (s' - 5) with
        | some bo0, some bo1, some bo2, some bo3, some bl =>
          let newOffset := bo0 + 256 * bo1 + 65536 * bo2 + 16777216 * bo3
          let length := 1 + (bl >>> 2)
          if newOffset == 0 ∨ d < newOffset ∨ length > dst.length - d then
            some (.error .corrupt)
          else
            match copyWithin dst d newOffset length with
            | none => none
            | some dst' => s2DecodeSlow src dst' s' (d + length) newOffset fuel
        | _, _, _, _, _ => none
  else
    -- Verify we decoded exactly the right amount
    if d ≠ dst.length then some (.error .corrupt) else some (.ok dst)

/-- The fast-path loop of `s2_decode` in `decode.rs` (runs while at least five
bytes follow the cursor), falling through to `s2DecodeSlow`. -/
def s2DecodeFast (src : Bytes) (dst : Bytes) (s d offset : Nat) :
    Nat → Option (Except Err Bytes)
  | 0 => none
  | fuel + 1 =>
  if hs : s < src.length - 5 then
    have hs' : s < src.length := by omega
    let tag := src.get ⟨s, hs'⟩ &&& 0x03
    if tag == 0 then
      match decodeLiteralLength (src.drop s) with
      | none => none
      | some (.error e) => some (.error e)
      | some (.ok (length, consumed)) =>
        let s' := s + consumed
        if length > dst.length - d ∨ length > src.length - s' then
          some (.error .corrupt)
        else
          match copyFromSlice dst d ((src.drop s').take length) with
          | none => none
          | some dst' => s2DecodeFast src dst' (s' + length) (d + length) offset fuel
    else if tag == 1 then
      match decodeCopy1 (src.drop s) offset with
      | .error e => some (.error e)
      | .ok (newOffset, length, consumed) =>
        let s' := s + consumed
        if newOffset == 0 ∨ d < newOffset ∨ length > dst.length - d then
          some (.error .corrupt)
        else
          match copyWithin dst d newOffset length with
          | none => none
          | some dst' => s2DecodeFast src dst' s' (d + length) newOffset fuel
    else if tag == 2 then
      if s + 3 > src.length then some (.error .corrupt)
      else
        match src.get? (s + 1), src.get? (s + 2) with
        | some bo0, some bo1 =>
          let newOffset := bo0 + 256 * bo1
          let length := 1 + (src.get ⟨s, hs'⟩ >>> 2)
          if newOffset == 0 ∨ d < newOffset ∨ length > dst.length - d then
            some (.error .corrupt)
          else
            match copyWithin dst d newOffset length with
            | none => none
            | some dst' => s2DecodeFast src dst' (s + 3) (d + length) newOffset fuel
        | _, _ => none
    else
      if s + 5 > src.length then some (.error .corrupt)
      else
        match src.get? (s + 1), src.get? (s + 2), src.get? (s + 3), src.get? (s + 4) with
        | some bo0, some bo1, some bo2, some bo3 =>
          let newOffset := bo0 + 256 * bo1 + 65536 * bo2 + 16777216 * bo3
          let length := 1 + (src.get ⟨s, hs'⟩ >>> 2)
          if newOffset == 0 ∨ d < newOffset ∨ length > dst.length - d then
            some (.error .corrupt)
          else
            match copyWithin dst d newOffset length with
            | none => none
            | some dst' => s2DecodeFast src dst' (s + 5) (d + length) newOffset fuel
        | _, _, _, _ => none
  else s2DecodeSlow src dst s d offset (fuel + 1)

/-- `s2_decode` from `decode.rs`. -/
def s2Decode (dst : Bytes) (src : Bytes) : Option (Except Err Bytes) :=
  s2DecodeFast src dst 0 0 0 (src.length + 2)

/-- `decode_len` from `decode.rs` (64-bit target; the
`target_pointer_width = "32"` branch is inactive). -/
def decodeLen (src : Bytes) : Except Err (Nat × Nat) :=
  match decodeVarint src with
  | .error e => .error e
  | .ok (v, n) => if v > 0xffffffff then .error .corrupt else .ok (v, n)

/-- `decode` from `decode.rs`: read the length header, allocate a zeroed
output of that size and run `s2_decode` on the rest. -/
def decode (src : Bytes) : Option (Except Err Bytes) :=
  match decodeLen src with
  | .error e => some (.error e)
  | .ok (dlen, headerLen) => s2Decode (List.replicate dlen 0) (src.drop headerLen)

/-! ## Encoders (`encode.rs`)

The hash tables (`vec![0u32; size]` / `vec![0u64; size]`) are total functions
initialised to `0`; `update` is a pointwise store.  Loop fuel: `none` means
the fuel ran out, never a Rust outcome. -/

/-- `MIN_NON_LITERAL_BLOCK_SIZE` from `constants.rs`. -/
def MIN_NON_LITERAL_BLOCK_SIZE : Nat := 32

/-- `INPUT_MARGIN` from `constants.rs`. -/
def INPUT_MARGIN : Nat := 8

/-- Pointwise store into a hash table modelled as a function. -/
def update (t : Nat → Nat) (i v : Nat) : Nat → Nat :=
  fun j => if j = i then v else t j

/-- Identity continuation-passing helper: `seqNat n k = k n` (see
`seqNat_eq`).  Matching on `n` makes call-by-name evaluation of the
embedded loops pass numeric state between iterations in normal form, which
keeps concrete evaluation of the encoders tractable; it does not change
any value. -/
def seqNat (n : Nat) (k : Nat → α) : α :=
  match n with
  | 0 => k 0
  | m + 1 => k (m + 1)

/-- `seqNat` for an `Int` (see `seqInt_eq`). -/
def seqInt (i : Int) (k : Int → α) : α :=
  match i with
  | .ofNat n => seqNat n fun n => k (.ofNat n)
  | .negSucc n => seqNat n fun n => k (.negSucc n)

/-- `hash` from `encode.rs`: Snappy hash of the first four bytes of `data`. -/
def hash (data : Bytes) (shift : Nat) : Nat :=
  ((load32 data 0 * 0x1e35a7bd) % 2 ^ 32) >>> shift

/-- `hash4` from `encode.rs` (Better/Best short hash). -/
def hash4 (u : Nat) (h : Nat) : Nat :=
  (((u % 2 ^ 32) * 2654435761) % 2 ^ 32) >>> ((32 - h) % 32)

/-- `hash7` from `encode.rs` (Better long hash; `u << (64 - 56)`). -/
def hash7 (u : Nat) (h : Nat) : Nat :=
  ((((u <<< 8) % 2 ^ 64) * 58295818150454627) % 2 ^ 64) >>> ((64 - h) % 64)

/-- `hash8` from `encode.rs` (Best long hash). -/
def hash8 (u : Nat) (h : Nat) : Nat :=
  (((u % 2 ^ 64) * 0xcf1bbcdcb7a56463) % 2 ^ 64) >>> ((64 - h) % 64)

/-- Backward match extension shared by the Fast/Snappy/Better encoders:
step `candidate` and `s` back while the preceding bytes agree. -/
def extendBackGo (src : Bytes) (nextEmit : Nat) : Nat → Nat → Nat → Nat × Nat
  | 0, candidate, s => (candidate, s)
  | k + 1, candidate, s =>
    if candidate > 0 ∧ s > nextEmit ∧ src.getD (candidate - 1) 0 = src.getD (s - 1) 0 then
      extendBackGo src nextEmit k (candidate - 1) (s - 1)
    else (candidate, s)

/-- See `extendBackGo`; each step lowers `s`, so countdown `s + 1` always
suffices. -/
def extendBack (src : Bytes) (nextEmit candidate s : Nat) : Nat × Nat :=
  extendBackGo src nextEmit (s + 1) candidate s

/-- The eight-byte-stride forward extension of the Fast/Snappy encoders
(`while s <= src.len() - 8`); on a mismatch `s` advances by the number of
agreeing low bytes while `candidate` keeps its pre-stride value. -/
def extendFwdFastGo (src : Bytes) : Nat → Nat → Nat → Nat × Nat
  | 0, s, candidate => (s, candidate)
  | k + 1, s, candidate =>
    if s + 8 ≤ src.length then
      if load64 src s ≠ load64 src candidate then
        (s + trailingZeros64 (load64 src s ^^^ load64 src candidate) / 8, candidate)
      else extendFwdFastGo src k (s + 8) (candidate + 8)
    else (s, candidate)

/-- See `extendFwdFastGo`; each step raises `s` by eight, so countdown
`src.length + 1` always suffices. -/
def extendFwdFast (src : Bytes) (s candidate : Nat) : Nat × Nat :=
  extendFwdFastGo src (src.length + 1) s candidate

/-- The byte-tail loop of the Fast encoder
(`while s < src.len() && candidate < s && src[s] == src[candidate]`). -/
def extendFwdTailGo (src : Bytes) : Nat → Nat → Nat → Nat × Nat
  | 0, s, candidate => (s, candidate)
  | k + 1, s, candidate =>
    if s < src.length ∧ candidate < s ∧ src.getD s 0 = src.getD candidate 0 then
      extendFwdTailGo src k (s + 1) (candidate + 1)
    else (s, candidate)

/-- See `extendFwdTailGo`; each step raises `s`, so countdown
`src.length + 1` always suffices. -/
def extendFwdTail (src : Bytes) (s candidate : Nat) : Nat × Nat :=
  extendFwdTailGo src (src.length + 1) s candidate

/-- Result of a block-encoder loop: Rust `return 0` (`bail`) or falling out
of the outer loop with the emitted bytes and `next_emit`. -/
inductive BlockOut where
  | bail
  | done (out : Bytes) (nextEmit : Nat)
  deriving Repr

mutual

/-- The `'search` loop of `encode_block` in `encode.rs`. -/
def encodeBlockSearch (src : Bytes) (shift sLimit : Nat) (table : Nat → Nat)
    (nextEmit s skip : Nat) (out : Bytes) : Nat → Option BlockOut
  | 0 => none
  | fuel + 1 =>
    let nextS := s + (skip >>> 5)
    let skip := skip + 1
    if nextS > sLimit then some (.done out nextEmit)
    else
      let h := hash (src.drop s) shift
      let candidate := table h
      let table := update table h (s % 2 ^ 32)
      if load32 src s = load32 src candidate then
        encodeBlockEmit src shift sLimit table nextEmit s candidate out fuel
      else encodeBlockSearch src shift sLimit table nextEmit nextS skip out fuel
termination_by structural fuel => fuel

/-- The `'emit_copies` loop of `encode_block` in `encode.rs`. -/
def encodeBlockEmit (src : Bytes) (shift sLimit : Nat) (table : Nat → Nat)
    (nextEmit s candidate : Nat) (out : Bytes) : Nat → Option BlockOut
  | 0 => none
  | fuel + 1 =>
    let (candidate, s) := extendBack src nextEmit candidate s
    let out := if s > nextEmit then out ++ emitLiteral ((src.drop nextEmit).take (s - nextEmit))
               else out
    let base := s
    let offset := base - candidate
    let (s, candidate) := extendFwdFast src (s + 4) (candidate + 4)
    let (s, _) := extendFwdTail src s candidate
    let out := out ++ emitCopy offset (s - base)
    let nextEmit := s
    if s ≥ sLimit then some (.done out nextEmit)
    else
      let table := if s ≥ 2 then update table (hash (src.drop (s - 2)) shift) ((s - 2) % 2 ^ 32)
                   else table
      let hCurr := hash (src.drop s) shift
      let candidate := table hCurr
      let table := update table hCurr (s % 2 ^ 32)
      if candidate < s ∧ s + 4 ≤ src.length ∧ load32 src s = load32 src candidate then
        encodeBlockEmit src shift sLimit table nextEmit s candidate out fuel
      else encodeBlockSearch src shift sLimit table nextEmit (s + 1) 32 out fuel
termination_by structural fuel => fuel

end

/-- `encode_block` from `encode.rs` (the Fast encoder); `some []` models the
Rust `return 0` (not compressible). -/
def encodeBlock (src : Bytes) (fuel : Nat) : Option Bytes :=
  if src.length < MIN_NON_LITERAL_BLOCK_SIZE then some []
  else
    let tableBits : Nat := if src.length ≤ 64 * 1024 then 14 else 17
    let shift := 32 - tableBits
    let sLimit := src.length - INPUT_MARGIN
    match encodeBlockSearch src shift sLimit (fun _ => 0) 0 1 32 [] fuel with
    | none => none
    | some .bail => some []
    | some (.done out nextEmit) =>
      let out := if nextEmit < src.length then out ++ emitLiteral (src.drop nextEmit) else out
      if out.length ≥ src.length - src.length / 32 then some [] else some out

/-- The main loop of `encode_block_snappy` in `encode.rs`: search plus a
single emission step (no repeats, no byte-tail extension). -/
def encodeBlockSnappyLoop (src : Bytes) (shift sLimit : Nat) (table : Nat → Nat)
    (nextEmit s skip : Nat) (out : Bytes) : Nat → Option BlockOut
  | 0 => none
  | fuel + 1 =>
    let nextS := s + (skip >>> 5)
    let skip := skip + 1
    if nextS > sLimit then some (.done out nextEmit)
    else
      let h := hash (src.drop s) shift
      let candidate := table h
      let table := update table h (s % 2 ^ 32)
      if load32 src s = load32 src candidate then
        let (candidate, s) := extendBack src nextEmit candidate s
        let out := if s > nextEmit then
                     out ++ emitLiteral ((src.drop nextEmit).take (s - nextEmit))
                   else out
        let base := s
        let rep := base - candidate
        let (s, _) := extendFwdFast src (s + 4) (candidate + 4)
        let out := out ++ emitCopyNoRepeat rep (s - base)
        let nextEmit := s
        if s ≥ sLimit then some (.done out nextEmit)
        else
          let table := update table (hash (src.drop (s - 1)) shift) ((s - 1) % 2 ^ 32)
          encodeBlockSnappyLoop src shift sLimit table nextEmit (s + 1) 32 out fuel
      else encodeBlockSnappyLoop src shift sLimit table nextEmit nextS skip out fuel

/-- `encode_block_snappy` from `encode.rs`. -/
def encodeBlockSnappy (src : Bytes) (fuel : Nat) : Option Bytes :=
  if src.length < MIN_NON_LITERAL_BLOCK_SIZE then some []
  else
    let shift := 32 - 14
    let sLimit := src.length - INPUT_MARGIN
    match encodeBlockSnappyLoop src shift sLimit (fun _ => 0) 0 1 32 [] fuel with
    | none => none
    | some .bail => some []
    | some (.done out nextEmit) =>
      let out := if nextEmit < src.length then out ++ emitLiteral (src.drop nextEmit) else out
      if out.length ≥ src.length - src.length / 32 then some [] else some out

/-- `encode` from `encode.rs` (Fast level): varint length header, then the
block encoder, falling back to a single literal when not compressible.
`none` is exhausted fuel or the `max_encoded_len` expect-panic. -/
def encode (src : Bytes) (fuel : Nat) : Option Bytes :=
  if src.length > 0xffffffff then none
  else
    let d := encodeVarint src.length
    if src.length = 0 then some d
    else if src.length < MIN_NON_LITERAL_BLOCK_SIZE then some (d ++ emitLiteral src)
    else
      match encodeBlock src fuel with
      | none => none
      | some n => if n.length > 0 then some (d ++ n) else some (d ++ emitLiteral src)

/-- The forward match extension of `encode_block_better` in `encode.rs`
(byte-wise near the end of `src`, eight-byte strides otherwise, stopping
when the candidate side would read past the end). -/
def betterExtendGo (src : Bytes) : Nat → Nat → Nat → Nat × Nat
  | 0, s, candidate => (s, candidate)
  | k + 1, s, candidate =>
    seqNat s fun s => seqNat candidate fun candidate =>
    if s < src.length then
      if src.length - s < 8 then
        if s < src.length ∧ candidate < src.length ∧ src.getD s 0 = src.getD candidate 0 then
          betterExtendGo src k (s + 1) (candidate + 1)
        else (s, candidate)
      else if candidate + 8 > src.length then (s, candidate)
      else
        let diff := load64 src s ^^^ load64 src candidate
        if diff ≠ 0 then (s + trailingZeros64 diff / 8, candidate)
        else betterExtendGo src k (s + 8) (candidate + 8)
    else (s, candidate)

/-- See `betterExtendGo`; countdown `src.length + 1` always suffices. -/
def betterExtend (src : Bytes) (s candidate : Nat) : Nat × Nat :=
  betterExtendGo src (src.length + 1) s candidate

/-- The sparse long-table indexing loop of `encode_block_better`. -/
def betterSparseGo (src : Bytes) : Nat → (Nat → Nat) → Nat → Nat → Nat → Nat → Nat
  | 0, lT, _, _, _ => lT
  | k + 1, lT, index0, index2, index1 =>
    seqNat index0 fun index0 => seqNat index2 fun index2 =>
    if index2 < index1 then
      let lT := if index0 < src.length - 8 then
                  update lT (hash7 (load64 src index0) 17) (index0 % 2 ^ 32)
                else lT
      let lT := if index2 < src.length - 8 then
                  update lT (hash7 (load64 src index2) 17) (index2 % 2 ^ 32)
                else lT
      betterSparseGo src k lT (index0 + 2) (index2 + 2) index1
    else lT

/-- See `betterSparseGo`; `index2` rises by two per step, so countdown
`index1 + 1` always suffices. -/
def betterSparse (src : Bytes) (lT : Nat → Nat) (index0 index2 index1 : Nat) : Nat → Nat :=
  betterSparseGo src (index1 + 1) lT index0 index2 index1

mutual

/-- The match-finding loop of `encode_block_better` in `encode.rs`. -/
def betterFind (src : Bytes) (sLimit dstLimit : Nat) (lT sT : Nat → Nat)
    (nextEmit s : Nat) (cv : Nat) (rep : Nat) (out : Bytes) : Nat → Option BlockOut
  | 0 => none
  | fuel + 1 =>
    seqNat nextEmit fun nextEmit => seqNat s fun s => seqNat cv fun cv => seqNat rep fun rep =>
    let nextS := s + (s - nextEmit) / 128 + 1
    if nextS > sLimit then some (.done out nextEmit)
    else
      let hashL := hash7 cv 17
      let hashS := hash4 cv 14
      let candidateL := lT hashL
      let candidateS := sT hashS
      let lT := update lT hashL (s % 2 ^ 32)
      let sT := update sT hashS (s % 2 ^ 32)
      let valLong := if candidateL > 0 ∧ candidateL < src.length - 8 then load64 src candidateL
                     else 0
      let valShort := if candidateS > 0 ∧ candidateS < src.length - 8 then load64 src candidateS
                      else 0
      if cv = valLong then
        betterEmit src sLimit dstLimit lT sT nextEmit s nextS candidateL cv rep out fuel
      else if cv = valShort then
        betterEmit src sLimit dstLimit lT sT nextEmit s nextS candidateS cv rep out fuel
      else if cv % 2 ^ 32 = valLong % 2 ^ 32 then
        betterEmit src sLimit dstLimit lT sT nextEmit s nextS candidateL cv rep out fuel
      else if cv % 2 ^ 32 = valShort % 2 ^ 32 then
        let hashL2 := hash7 (cv >>> 8) 17
        let candidateLNext := lT hashL2
        let lT := update lT hashL2 ((s + 1) % 2 ^ 32)
        if candidateLNext > 0 ∧ candidateLNext < src.length - 4 ∧
            (cv >>> 8) % 2 ^ 32 = load32 src candidateLNext then
          betterEmit src sLimit dstLimit lT sT nextEmit (s + 1) nextS candidateLNext cv rep out fuel
        else
          betterEmit src sLimit dstLimit lT sT nextEmit s nextS candidateS cv rep out fuel
      else
        let cv := if nextS + 8 ≤ src.length then load64 src nextS else cv
        betterFind src sLimit dstLimit lT sT nextEmit nextS cv rep out fuel
termination_by structural fuel => fuel

/-- The post-match part of the outer loop of `encode_block_better`:
backward extension, bail checks, emission and table indexing. -/
def betterEmit (src : Bytes) (sLimit dstLimit : Nat) (lT sT : Nat → Nat)
    (nextEmit s nextS candidateL : Nat) (cv : Nat) (rep : Nat) (out : Bytes) :
    Nat → Option BlockOut
  | 0 => none
  | fuel + 1 =>
    seqNat s fun s => seqNat candidateL fun candidateL =>
    let (candidateL, s) := extendBack src nextEmit candidateL s
    seqNat s fun s => seqNat candidateL fun candidateL =>
    if out.length + (s - nextEmit) > dstLimit then some .bail
    else
      let base := s
      let offset := base - candidateL
      let (s, _) := betterExtend src (s + 4) (candidateL + 4)
      seqNat s fun s => seqNat offset fun offset =>
      if offset > 65535 ∧ s - base ≤ 5 ∧ rep ≠ offset then
        let s := nextS + 1
        if s ≥ sLimit then some (.done out nextEmit)
        else
          let cv := if s + 8 ≤ src.length then load64 src s else cv
          betterFind src sLimit dstLimit lT sT nextEmit s cv rep out fuel
      else
        let out := out ++ emitLiteral ((src.drop nextEmit).take (base - nextEmit))
        let (out, rep) :=
          if rep = offset then (out ++ emitRepeat offset (s - base), rep)
          else (out ++ emitCopy offset (s - base), offset)
        let nextEmit := s
        if s ≥ sLimit then some (.done out nextEmit)
        else if out.length > dstLimit then some .bail
        else
          let index0 := base + 1
          let index1 := s - 2
          let (lT, sT) :=
            if index0 < src.length - 8 then
              let cv0 := load64 src index0
              let lT := update lT (hash7 cv0 17) (index0 % 2 ^ 32)
              let sT := if index0 + 1 < src.length - 8 then
                          update sT (hash4 (cv0 >>> 8) 14) ((index0 + 1) % 2 ^ 32)
                        else sT
              (lT, sT)
            else (lT, sT)
          let (lT, sT) :=
            if index1 > 0 ∧ index1 < src.length - 8 then
              let cv1 := load64 src index1
              let lT := update lT (hash7 cv1 17) (index1 % 2 ^ 32)
              let sT := if index1 + 1 < src.length - 8 then
                          update sT (hash4 (cv1 >>> 8) 14) ((index1 + 1) % 2 ^ 32)
                        else sT
              (lT, sT)
            else (lT, sT)
          -- `(index0 + index1).div_ceil(2)` with `index0` already stepped
          let lT := betterSparse src lT (index0 + 1) ((index0 + 1 + index1 + 1) / 2) index1
          let cv := if s + 8 ≤ src.length then load64 src s else cv
          betterFind src sLimit dstLimit lT sT nextEmit s cv rep out fuel
termination_by structural fuel => fuel

end

/-- `encode_block_better` from `encode.rs`. -/
def encodeBlockBetter (src : Bytes) (fuel : Nat) : Option Bytes :=
  if src.length < MIN_NON_LITERAL_BLOCK_SIZE then some []
  else
    let dstLimit := src.length - src.length / 32 - 6
    let sLimit := src.length - INPUT_MARGIN
    if src.length < 8 then some []
    else
      match betterFind src sLimit dstLimit (fun _ => 0) (fun _ => 0) 0 1 (load64 src 1) 0 []
          fuel with
      | none => none
      | some .bail => some []
      | some (.done out nextEmit) =>
        if nextEmit < src.length then
          if out.length + src.length - nextEmit > dstLimit then some []
          else some (out ++ emitLiteral (src.drop nextEmit))
        else some out

/-- `encode_better` from `encode.rs`. -/
def encodeBetter (src : Bytes) (fuel : Nat) : Option Bytes :=
  if src.length > 0xffffffff then none
  else
    let d := encodeVarint src.length
    if src.length = 0 then some d
    else if src.length < MIN_NON_LITERAL_BLOCK_SIZE then some (d ++ emitLiteral src)
    else
      match encodeBlockBetter src fuel with
      | none => none
      | some n => if n.length > 0 then some (d ++ n) else some (d ++ emitLiteral src)

/-- The `Match` struct of `encode_block_best` in `encode.rs`. -/
structure Match where
  offset : Nat
  s : Nat
  length : Nat
  score : Int
  rep : Bool
  deriving DecidableEq, Repr

/-- `Match::empty()`. -/
def Match.empty : Match := ⟨0, 0, 0, 0, false⟩

/-- `seqNat` for a `Match` (see `seqMatch_eq`): forces the fields into
normal form for call-by-name evaluation. -/
def seqMatch (m : Match) (k : Match → α) : α :=
  match m with
  | ⟨o, s, l, sc, r⟩ =>
    seqNat o fun o => seqNat s fun s => seqNat l fun l => seqInt sc fun sc =>
      match r with
      | true => k ⟨o, s, l, sc, true⟩
      | false => k ⟨o, s, l, sc, false⟩

/-- `get_cur` from `encode_block_best`: low 32 bits of a chained table slot. -/
def getCur (x : Nat) : Nat := x &&& 0xffffffff

/-- `get_prev` from `encode_block_best`: high 32 bits of a chained table slot. -/
def getPrev (x : Nat) : Nat := x >>> 32

/-- `v as i32` for a `usize` value `v`: two's-complement reinterpretation
of the low 32 bits. -/
def usizeAsI32 (n : Nat) : Int :=
  if n % 2 ^ 32 < 2 ^ 31 then ((n % 2 ^ 32 : Nat) : Int)
  else ((n % 2 ^ 32 : Nat) : Int) - 2 ^ 32

/-- Wrapping `i32` arithmetic: reduce an integer into `[-2^31, 2^31)`, the
value a release-mode Rust `i32` operation leaves behind. -/
def wrapI32 (v : Int) : Int := (v + 2 ^ 31) % 2 ^ 32 - 2 ^ 31

/-- The `score_match` closure of `encode_block_best` in `encode.rs`, in the
source's `i32` arithmetic: `(length as i32) - (s as i32)`, plus one when no
literal needs to precede the match, minus the exact emission cost cast
`as i32`, every operation wrapping. -/
def scoreMatch (m : Match) (nextEmit : Nat) : Int :=
  let score := wrapI32 (usizeAsI32 m.length - usizeAsI32 m.s)
  let score := if nextEmit = m.s then wrapI32 (score + 1) else score
  let offset := m.s - m.offset
  if m.rep then wrapI32 (score - usizeAsI32 (emitRepeatSize offset m.length))
  else wrapI32 (score - usizeAsI32 (emitCopySize offset m.length))

/-- The forward-extension loop of the `match_at` closure (`m.length` doubles
as the candidate-side cursor until the final subtraction). -/
def matchAtExtendGo (src : Bytes) : Nat → Nat → Nat → Nat
  | 0, _, mLength => mLength
  | k + 1, sPos, mLength =>
    seqNat sPos fun sPos => seqNat mLength fun mLength =>
    if sPos < src.length then
      if src.length - sPos < 8 then
        if src.getD sPos 0 = src.getD mLength 0 then matchAtExtendGo src k (sPos + 1) (mLength + 1)
        else mLength
      else
        let diff := load64 src sPos ^^^ load64 src mLength
        if diff ≠ 0 then mLength + trailingZeros64 diff / 8
        else matchAtExtendGo src k (sPos + 8) (mLength + 8)
    else mLength

/-- See `matchAtExtendGo`; countdown `src.length + 1` always suffices. -/
def matchAtExtend (src : Bytes) (sPos mLength : Nat) : Nat :=
  matchAtExtendGo src (src.length + 1) sPos mLength

/-- The `match_at` closure of `encode_block_best` in `encode.rs`: test a
candidate position (`offset` is the candidate, per the Rust naming), extend,
score, and reject scores `≤ -(s as i32)` (a wrapping `i32` negation). -/
def matchAt (src : Bytes) (offset s first : Nat) (rep : Bool) (best : Match)
    (nextEmit : Nat) : Match :=
  if best.length ≠ 0 ∧
      (best.s + 2 ^ 64 - best.offset) % 2 ^ 64 = (s + 2 ^ 64 - offset) % 2 ^ 64 then
    Match.empty
  else if offset ≥ src.length ∨ load32 src offset ≠ first then Match.empty
  else
    let mLength := matchAtExtend src (s + 4) (4 + offset)
    let m : Match := ⟨offset, s, mLength - offset, 0, rep⟩
    let sc := scoreMatch m nextEmit
    if sc ≤ wrapI32 (-usizeAsI32 m.s) then Match.empty
    else { m with score := sc }

/-- The `best_of` closure of `encode_block_best`: keep the higher score,
ties broken toward `a`. -/
def bestOf (a b : Match) : Match :=
  if b.length = 0 then a
  else if a.length = 0 then b
  else if a.score + (b.s : Int) ≥ b.score + (a.s : Int) then a
  else b

/-- The backward extension of `encode_block_best` (non-repeat matches only):
returns the updated `(offset, length, s)`. -/
def bestBackGo (src : Bytes) (nextEmit : Nat) : Nat → Nat → Nat → Nat → Nat × Nat × Nat
  | 0, offset, length, s => (offset, length, s)
  | k + 1, offset, length, s =>
    seqNat offset fun offset => seqNat length fun length => seqNat s fun s =>
    if offset > 0 ∧ s > nextEmit ∧ src.getD (offset - 1) 0 = src.getD (s - 1) 0 then
      bestBackGo src nextEmit k (offset - 1) (length + 1) (s - 1)
    else (offset, length, s)

/-- See `bestBackGo`; each step lowers `s`, so countdown `s + 1` always
suffices. -/
def bestBack (src : Bytes) (nextEmit offset length s : Nat) : Nat × Nat × Nat :=
  bestBackGo src nextEmit (s + 1) offset length s

/-- The table-fill loop of `encode_block_best` (chained stores for every
position of the emitted match). -/
def bestFillGo (src : Bytes) : Nat → (Nat → Nat) → (Nat → Nat) → Nat → Nat →
    (Nat → Nat) × (Nat → Nat)
  | 0, lT, sT, _, _ => (lT, sT)
  | k + 1, lT, sT, i, s =>
    seqNat i fun i =>
    if i < s then
      if i < src.length - 8 then
        let cv0 := load64 src i
        let long0 := hash8 cv0 19
        let short0 := hash4 cv0 16
        seqNat (lT long0) fun vL => seqNat (sT short0) fun vS =>
        let lT := update lT long0 ((i % 2 ^ 32) ||| ((vL <<< 32) % 2 ^ 64))
        let sT := update sT short0 ((i % 2 ^ 32) ||| ((vS <<< 32) % 2 ^ 64))
        bestFillGo src k lT sT (i + 1) s
      else bestFillGo src k lT sT (i + 1) s
    else (lT, sT)

/-- See `bestFillGo`; countdown `s + 1` always suffices. -/
def bestFill (src : Bytes) (lT sT : Nat → Nat) (i s : Nat) : (Nat → Nat) × (Nat → Nat) :=
  bestFillGo src (s + 1) lT sT i s

/-- The probes of the `bestSearch` loop body at `s + 2` (`encode_block_best`
in `encode.rs`). -/
def bestProbeS2 (src : Bytes) (lT sT : Nat → Nat) (nextEmit s rp : Nat)
    (cv1 : Nat) (best : Match) : Match :=
  let hashS2 := hash4 (cv1 >>> 8) 16
  let nextShort2 := sT hashS2
  let s2 := s + 2
  if s2 < src.length - 8 then
    let cv2 := load64 src s2
    let hashL2 := hash8 cv2 19
    let nextLong2 := lT hashL2
    let best :=
      if rp ≤ s2 ∧ rp > 0 then
        bestOf best (matchAt src (s2 - rp) s2 (cv2 % 2 ^ 32) true best nextEmit)
      else best
    let best := bestOf best (matchAt src (getCur nextShort2) s2 (cv2 % 2 ^ 32) false best nextEmit)
    let best := bestOf best (matchAt src (getPrev nextShort2) s2 (cv2 % 2 ^ 32) false best nextEmit)
    let best := bestOf best (matchAt src (getCur nextLong2) s2 (cv2 % 2 ^ 32) false best nextEmit)
    bestOf best (matchAt src (getPrev nextLong2) s2 (cv2 % 2 ^ 32) false best nextEmit)
  else best

/-- The probes of the `bestSearch` loop body at `s + 1`, falling through to
the `s + 2` probes. -/
def bestProbeS1 (src : Bytes) (lT sT : Nat → Nat) (nextEmit s rp : Nat)
    (cv : Nat) (best : Match) : Match :=
  let hashS1 := hash4 (cv >>> 8) 16
  let nextShort := sT hashS1
  let s1 := s + 1
  if s1 < src.length - 8 then
    let cv1 := load64 src s1
    let hashL1 := hash8 cv1 19
    let nextLong := lT hashL1
    let best := bestOf best (matchAt src (getCur nextShort) s1 (cv1 % 2 ^ 32) false best nextEmit)
    let best := bestOf best (matchAt src (getPrev nextShort) s1 (cv1 % 2 ^ 32) false best nextEmit)
    let best := bestOf best (matchAt src (getCur nextLong) s1 (cv1 % 2 ^ 32) false best nextEmit)
    let best := bestOf best (matchAt src (getPrev nextLong) s1 (cv1 % 2 ^ 32) false best nextEmit)
    bestProbeS2 src lT sT nextEmit s rp cv1 best
  else best

/-- The probe of the `bestSearch` loop body at the end of the current best
match (SKIP_BEGINNING = 2, SKIP_END = 1). -/
def bestProbeEnd (src : Bytes) (sLimit : Nat) (lT : Nat → Nat) (nextEmit : Nat)
    (best : Match) : Match :=
  let sAt := best.s + best.length - 1
  if sAt < sLimit then
    let sBack := best.s + 2 - 1
    let backL := best.length - 2
    if sBack < src.length - 8 ∧ sAt < src.length - 8 then
      let cvBack := load64 src sBack
      let nxt := lT (hash8 (load64 src sAt) 19)
      let best :=
        if getCur nxt > backL ∧ getCur nxt - backL > 0 then
          bestOf best (matchAt src (getCur nxt - backL) sBack (cvBack % 2 ^ 32) false best nextEmit)
        else best
      if getPrev nxt > backL ∧ getPrev nxt - backL > 0 then
        bestOf best (matchAt src (getPrev nxt - backL) sBack (cvBack % 2 ^ 32) false best nextEmit)
      else best
    else best
  else best

/-- The probes of the `bestSearch` loop body at `s` itself (the four table
candidates). -/
def bestProbeAt (src : Bytes) (nextEmit s : Nat) (cv : Nat)
    (candidateL candidateS : Nat) (best : Match) : Match :=
  if s > 0 then
    let best := bestOf best (matchAt src (getCur candidateL) s (cv % 2 ^ 32) false best nextEmit)
    let best := bestOf best (matchAt src (getPrev candidateL) s (cv % 2 ^ 32) false best nextEmit)
    let best := bestOf best (matchAt src (getCur candidateS) s (cv % 2 ^ 32) false best nextEmit)
    bestOf best (matchAt src (getPrev candidateS) s (cv % 2 ^ 32) false best nextEmit)
  else best

/-- The repeat-offset probe of the `bestSearch` loop body. -/
def bestProbeRep (src : Bytes) (nextEmit s rp : Nat) (cv : Nat)
    (best : Match) : Match :=
  if rp ≤ s ∧ rp > 0 then
    bestOf best (matchAt src (s - rp + 1) (s + 1) ((cv >>> 8) % 2 ^ 32) true best nextEmit)
  else best

/-- The candidate-probing section of the `bestSearch` loop body (probes at
`s`, `s + 1`, `s + 2`, the repeat offset and the end of the current best
match, folded with `bestOf`). -/
def bestProbe (src : Bytes) (sLimit : Nat) (lT sT : Nat → Nat)
    (nextEmit s rp : Nat) (cv : Nat) (candidateL candidateS : Nat)
    (best : Match) : Match :=
  let best := bestProbeAt src nextEmit s cv candidateL candidateS best
  let best := bestProbeRep src nextEmit s rp cv best
  if best.length > 0 then
    bestProbeEnd src sLimit lT nextEmit (bestProbeS1 src lT sT nextEmit s rp cv best)
  else best

mutual

/-- The candidate-search loop of `encode_block_best` in `encode.rs`: probe
the chained tables (and the repeat offset) at `s`, `s + 1`, `s + 2` and at
the end of the best match, then advance or hand over for emission. -/
def bestSearch (src : Bytes) (sLimit dstLimit : Nat) (lT sT : Nat → Nat)
    (nextEmit s rp : Nat) (cv : Nat) (best : Match) (out : Bytes) : Nat → Option BlockOut
  | 0 => none
  | fuel + 1 =>
    seqNat nextEmit fun nextEmit => seqNat s fun s => seqNat rp fun rp =>
    seqNat cv fun cv => seqMatch best fun best =>
    let nextS0 := (s - nextEmit) / 256 + 1
    let nextS := if nextS0 > 64 then s + 64 else nextS0 + s
    if nextS > sLimit then
      bestHandle src sLimit dstLimit lT sT nextEmit s rp cv best out fuel
    else
      let hashL := hash8 cv 19
      let hashS := hash4 cv 16
      let candidateL := lT hashL
      let candidateS := sT hashS
      seqNat candidateL fun candidateL => seqNat candidateS fun candidateS =>
      let best := bestProbe src sLimit lT sT nextEmit s rp cv candidateL candidateS best
      let lT := update lT hashL ((s % 2 ^ 32) ||| ((candidateL <<< 32) % 2 ^ 64))
      let sT := update sT hashS ((s % 2 ^ 32) ||| ((candidateS <<< 32) % 2 ^ 64))
      if best.length > 0 then
        bestHandle src sLimit dstLimit lT sT nextEmit s rp cv best out fuel
      else if nextS ≥ src.length - 8 then
        bestHandle src sLimit dstLimit lT sT nextEmit s rp cv best out fuel
      else
        bestSearch src sLimit dstLimit lT sT nextEmit nextS rp (load64 src nextS) best out fuel
termination_by structural fuel => fuel

/-- The emission part of the outer loop of `encode_block_best`: backward
extension, bail checks, literal/copy/repeat emission and table filling. -/
def bestHandle (src : Bytes) (sLimit dstLimit : Nat) (lT sT : Nat → Nat)
    (nextEmit s rp : Nat) (cv : Nat) (best : Match) (out : Bytes) : Nat → Option BlockOut
  | 0 => none
  | fuel + 1 =>
    seqNat nextEmit fun nextEmit => seqMatch best fun best =>
    if best.length = 0 then some (.done out nextEmit)
    else
      let (bOffset, bLength, s) :=
        if best.rep then (best.offset, best.length, best.s)
        else bestBack src nextEmit best.offset best.length best.s
      if out.length + (s - nextEmit) > dstLimit then some .bail
      else
        let base := s
        let offset := s - bOffset
        let s := s + bLength
        if offset > 65535 ∧ s - base ≤ 5 ∧ ¬best.rep then
          let s := best.s + 1
          if s ≥ sLimit then some (.done out nextEmit)
          else
            let cv := if s < src.length - 8 then load64 src s else cv
            bestSearch src sLimit dstLimit lT sT nextEmit s rp cv Match.empty out fuel
        else
          let out := out ++ emitLiteral ((src.drop nextEmit).take (base - nextEmit))
          let out :=
            if best.rep then
              if nextEmit > 0 then out ++ emitRepeat offset bLength
              else out ++ emitCopy offset bLength
            else out ++ emitCopy offset bLength
          let rp := offset
          let nextEmit := s
          if s ≥ sLimit then some (.done out nextEmit)
          else if out.length > dstLimit then some .bail
          else
            let (lT, sT) := bestFill src lT sT (best.s + 1) s
            let cv := if s < src.length - 8 then load64 src s else cv
            bestSearch src sLimit dstLimit lT sT nextEmit s rp cv Match.empty out fuel
termination_by structural fuel => fuel

end

/-- `encode_block_best` from `encode.rs`. -/
def encodeBlockBest (src : Bytes) (fuel : Nat) : Option Bytes :=
  if src.length < MIN_NON_LITERAL_BLOCK_SIZE then some []
  else
    let dstLimit := src.length - 5
    let sLimit := src.length - INPUT_MARGIN
    if src.length < 8 then some []
    else
      match bestSearch src sLimit dstLimit (fun _ => 0) (fun _ => 0) 0 1 1 (load64 src 1)
          Match.empty [] fuel with
      | none => none
      | some .bail => some []
      | some (.done out nextEmit) =>
        if nextEmit < src.length then
          if out.length + src.length - nextEmit > dstLimit then some []
          else some (out ++ emitLiteral (src.drop nextEmit))
        else some out

/-- `encode_best` from `encode.rs`. -/
def encodeBest (src : Bytes) (fuel : Nat) : Option Bytes :=
  if src.length > 0xffffffff then none
  else
    let d := encodeVarint src.length
    if src.length = 0 then some d
    else if src.length < MIN_NON_LITERAL_BLOCK_SIZE then some (d ++ emitLiteral src)
    else
      match encodeBlockBest src fuel with
      | none => none
      | some n => if n.length > 0 then some (d ++ n) else some (d ++ emitLiteral src)

/-- `encode_snappy` from `encode.rs`. -/
def encodeSnappy (src : Bytes) (fuel : Nat) : Option Bytes :=
  if src.length > 0xffffffff then none
  else
    let d := encodeVarint src.length
    if src.length = 0 then some d
    else if src.length < MIN_NON_LITERAL_BLOCK_SIZE then some (d ++ emitLiteral src)
    else
      match encodeBlockSnappy src fuel with
      | none => none
      | some n => if n.length > 0 then some (d ++ n) else some (d ++ emitLiteral src)

/-- `literal_extra_size` from `encode.rs`: conservative literal header
size. -/
def literalExtraSize (n : Int) : Int :=
  if n = 0 then 0
  else if n < 60 then 1
  else if n < 256 then 2
  else if n < 65536 then 3
  else if n < 16777216 then 4
  else 5

/-- `64 - (n as u64).leading_zeros()`, the bit length of `n < 2^64`,
computed with an explicit 64-step countdown. -/
def bitsLenGo : Nat → Nat → Nat
  | 0, _ => 0
  | k + 1, n => if n = 0 then 0 else bitsLenGo k (n / 2) + 1

/-- See `bitsLenGo`. -/
def bitsLen (n : Nat) : Nat := bitsLenGo 64 n

/-- `max_encoded_len` from `encode.rs` (64-bit target; the
`target_pointer_width = "32"` branches are inactive). -/
def maxEncodedLen (srcLen : Nat) : Except Err Nat :=
  if srcLen > 0xffffffff then .error .tooLarge
  else
    let bitsNeeded := if srcLen = 0 then 0 else bitsLen srcLen
    let varintExtra := (bitsNeeded + 7) / 7
    let n := srcLen + varintExtra
    let n := n + (literalExtraSize srcLen).toNat
    let n := n + (srcLen / 32 + 1)
    if n > 0xffffffff then .error .tooLarge else .ok n

/-! ## Seek index (`index.rs`) -/

/-- `value as u64` for an `i64` value (two's-complement bits). -/
def toU64 (v : Int) : Nat := (v % ((2 : Int) ^ 64)).toNat

/-- A `u64` bit pattern read back as `i64`. -/
def toI64 (n : Nat) : Int := if n < 2 ^ 63 then (n : Nat) else (n : Int) - 2 ^ 64

/-- The zig-zag transform of `encode_varint` in `index.rs`:
`((value << 1) ^ (value >> 63)) as u64` (the arithmetic shift by 63 is all
ones exactly when `value` is negative). -/
def zigzag (value : Int) : Nat :=
  Nat.xor (toU64 (2 * value)) (if value < 0 then 2 ^ 64 - 1 else 0)

/-- `encode_varint` from `index.rs` (zig-zag signed varint); the byte loop is
the same as the one in `varint.rs`. -/
def indexEncodeVarint (value : Int) : Bytes := encodeVarint (zigzag value)

/-- The loop of `decode_varint` in `index.rs` (at most ten bytes), ending
with the zig-zag decode `((result >> 1) as i64) ^ -((result & 1) as i64)`. -/
def indexDecodeVarintLoop : Bytes → Nat → Nat → Nat → Except Err (Int × Nat)
  | [], _, _, _ => .error .corrupt
  | b :: rest, i, result, shift =>
    if i ≥ 10 then .error .corrupt
    else
      let result := result ||| (((b &&& 0x7f) <<< shift) % 2 ^ 64)
      if b < 0x80 then
        .ok (toI64 (Nat.xor (result >>> 1) (if result % 2 = 1 then 2 ^ 64 - 1 else 0)), i + 1)
      else indexDecodeVarintLoop rest (i + 1) result (shift + 7)

/-- `decode_varint` from `index.rs`: returns `(value, bytes_read)`. -/
def indexDecodeVarint (data : Bytes) : Except Err (Int × Nat) :=
  indexDecodeVarintLoop data 0 0 0

/-- `IndexEntry` from `index.rs`. -/
structure IndexEntry where
  compressedOffset : Int
  uncompressedOffset : Int
  deriving DecidableEq, Repr

/-- `Index` from `index.rs`. -/
structure Index where
  totalUncompressed : Int
  totalCompressed : Int
  info : List IndexEntry
  estBlockUncomp : Int
  deriving DecidableEq, Repr

/-- `Index::new()`. -/
def Index.new : Index := ⟨-1, -1, [], 0⟩

/-- `MIN_INDEX_DIST` from `index.rs` (1 MiB). -/
def MIN_INDEX_DIST : Int := 1 <<< 20

/-- `MAX_INDEX_ENTRIES` from `index.rs`. -/
def MAX_INDEX_ENTRIES : Nat := 1 <<< 16

/-- `Index::add` from `index.rs`: update the last entry in place when the
uncompressed offset repeats, reject non-monotonic pairs, and skip entries
closer than `MIN_INDEX_DIST`. -/
def Index.add (idx : Index) (compressedOffset uncompressedOffset : Int) : Except Err Index :=
  match idx.info.getLast? with
  | some last =>
    if last.uncompressedOffset = uncompressedOffset then
      .ok { idx with
        info := idx.info.dropLast ++ [{ last with compressedOffset := compressedOffset }] }
    else if last.uncompressedOffset > uncompressedOffset then .error .corrupt
    else if last.compressedOffset > compressedOffset then .error .corrupt
    else if last.uncompressedOffset + MIN_INDEX_DIST > uncompressedOffset then .ok idx
    else .ok { idx with info := idx.info ++ [⟨compressedOffset, uncompressedOffset⟩] }
  | none => .ok { idx with info := idx.info ++ [⟨compressedOffset, uncompressedOffset⟩] }

/-- Rust `slice::binary_search_by` (the std size-halving loop), specialised
to the key `uncompressed_offset`: `.ok i` is an exact hit, `.error i` the
insertion point. -/
def binSearchLoop (info : List IndexEntry) (target : Int) : Nat → Nat → Nat → Except Nat Nat
  | 0, left, _ => .error left
  | k + 1, left, right =>
    if left < right then
      let mid := left + (right - left) / 2
      let key := (info.getD mid ⟨0, 0⟩).uncompressedOffset
      if key < target then binSearchLoop info target k (mid + 1) right
      else if key > target then binSearchLoop info target k left mid
      else .ok mid
    else .error left

/-- See `binSearchLoop`; the interval shrinks every step, so countdown
`right + 1` always suffices. -/
def binSearchGo (info : List IndexEntry) (target : Int) (left right : Nat) : Except Nat Nat :=
  binSearchLoop info target (right + 1) left right

/-- The linear-search loop of `Index::find` (entries at most 200). -/
def findLinear : List IndexEntry → Int → Int → Int → Except Err (Int × Int)
  | [], _, c, u => .ok (c, u)
  | e :: rest, offset, c, u =>
    if e.uncompressedOffset > offset then .ok (c, u)
    else findLinear rest offset e.compressedOffset e.uncompressedOffset

/-- `Index::find` from `index.rs`: translate negative offsets from the end,
validate the range, then binary search (more than 200 entries) or linear
search for the last entry at or before the target. -/
def Index.find (idx : Index) (offset : Int) : Except Err (Int × Int) :=
  if idx.totalUncompressed < 0 then .error .corrupt
  else
    let off := if offset < 0 then idx.totalUncompressed + offset else offset
    if offset < 0 ∧ off < 0 then .error .invalidInput
    else if off > idx.totalUncompressed then .error .invalidInput
    else if idx.info.length > 200 then
      let i := match binSearchGo idx.info off 0 idx.info.length with
               | .ok i => i
               | .error i => if i = 0 then 0 else i - 1
      let entry := idx.info.getD i ⟨0, 0⟩
      .ok (entry.compressedOffset, entry.uncompressedOffset)
    else findLinear idx.info off 0 0

/-- The `remove_n` widening loop of `Index::reduce`. -/
def reduceRemoveNGo (est : Int) (len : Nat) : Nat → Nat → Nat
  | 0, removeN => removeN
  | k + 1, removeN =>
    if est * ((removeN : Int) + 1) < MIN_INDEX_DIST ∧ len / (removeN + 1) > 1000 then
      reduceRemoveNGo est len k (removeN + 1)
    else removeN

/-- See `reduceRemoveNGo`; the loop stops before `removeN` reaches `len`,
so countdown `len + 1` always suffices. -/
def reduceRemoveN (est : Int) (len : Nat) (removeN : Nat) : Nat :=
  reduceRemoveNGo est len (len + 1) removeN

/-- The decimation loop of `Index::reduce`: keep one entry of every
`removeN + 1`. -/
def decimateLoop (info : List IndexEntry) (removeN : Nat) : Nat → Nat → List IndexEntry
  | 0, _ => []
  | k + 1, idx =>
    if idx < info.length then
      info.getD idx ⟨0, 0⟩ :: decimateLoop info removeN k (idx + removeN + 1)
    else []

/-- See `decimateLoop`; countdown `info.length + 1` always suffices. -/
def decimateGo (info : List IndexEntry) (idx removeN : Nat) : List IndexEntry :=
  decimateLoop info removeN (info.length + 1) idx

/-- `Index::reduce` from `index.rs`. -/
def Index.reduce (idx : Index) : Index :=
  if idx.info.length < MAX_INDEX_ENTRIES ∧ idx.estBlockUncomp ≥ MIN_INDEX_DIST then idx
  else
    let removeN := (idx.info.length + 1) / MAX_INDEX_ENTRIES
    let removeN := reduceRemoveN idx.estBlockUncomp idx.info.length removeN
    { idx with
      info := decimateGo idx.info 0 removeN,
      estBlockUncomp := idx.estBlockUncomp + idx.estBlockUncomp * (removeN : Int) }

/-- `"s2idx\x00"`. -/
def S2_INDEX_HEADER : Bytes := [115, 50, 105, 100, 120, 0]

/-- `"\x00xdi2s"`. -/
def S2_INDEX_TRAILER : Bytes := [0, 120, 100, 105, 50, 115]

/-- The `has_uncompressed` scan of `Index::append_to`: `1` when the stored
uncompressed offsets differ from the progression `prev + est_block_uncomp`
started at `0`. -/
def hasUncGo (est : Int) (prev : IndexEntry) : List IndexEntry → Nat
  | [] => 0
  | e :: rest =>
    if e.uncompressedOffset ≠ prev.uncompressedOffset + est then 1 else hasUncGo est e rest

/-- See `hasUncGo`. -/
def hasUncompressed (est : Int) : List IndexEntry → Nat
  | [] => 0
  | e :: rest => if e.uncompressedOffset ≠ 0 then 1 else hasUncGo est e rest

/-- The delta coding of the uncompressed offsets in `Index::append_to`. -/
def uOffGo (est : Int) (prev : IndexEntry) : List IndexEntry → Bytes
  | [] => []
  | e :: rest =>
    indexEncodeVarint (e.uncompressedOffset - prev.uncompressedOffset - est) ++ uOffGo est e rest

/-- See `uOffGo` (the first entry is stored raw). -/
def uOffBytes (est : Int) : List IndexEntry → Bytes
  | [] => []
  | e :: rest => indexEncodeVarint e.uncompressedOffset ++ uOffGo est e rest

/-- The delta-minus-predictor coding of the compressed offsets in
`Index::append_to`; the predictor moves by half the residual after each
entry (`i64` division truncating toward zero). -/
def cOffGo (prev : IndexEntry) (cPredict : Int) : List IndexEntry → Bytes
  | [] => []
  | e :: rest =>
    let off := e.compressedOffset - prev.compressedOffset - cPredict
    indexEncodeVarint off ++ cOffGo e (cPredict + Int.tdiv off 2) rest

/-- See `cOffGo` (the first entry is stored raw; the predictor starts at
`est_block_uncomp / 2`). -/
def cOffBytes (est : Int) : List IndexEntry → Bytes
  | [] => []
  | e :: rest => indexEncodeVarint e.compressedOffset ++ cOffGo e (Int.tdiv est 2) rest

/-- `Index::append_to` from `index.rs`: reduce, then append the skippable
index frame (type `0x99`, 24-bit length, header, varint fields, offset
blocks, 32-bit total size, trailer).  Returns the reduced index and the
extended buffer. -/
def Index.appendTo (idx : Index) (buf : Bytes) (uncompTotal compTotal : Int) :
    Index × Bytes :=
  let idx := idx.reduce
  let flag := hasUncompressed idx.estBlockUncomp idx.info
  let body := S2_INDEX_HEADER ++ indexEncodeVarint uncompTotal ++ indexEncodeVarint compTotal ++
    indexEncodeVarint idx.estBlockUncomp ++ indexEncodeVarint (idx.info.length : Int) ++
    [flag] ++ (if flag = 1 then uOffBytes idx.estBlockUncomp idx.info else []) ++
    cOffBytes idx.estBlockUncomp idx.info
  let totalSize := (4 + body.length + 4 + S2_INDEX_TRAILER.length) % 2 ^ 32
  let full := body ++ le32 totalSize ++ S2_INDEX_TRAILER
  let chunkLen := full.length
  (idx, buf ++ [0x99, chunkLen % 256, (chunkLen >>> 8) % 256, (chunkLen >>> 16) % 256] ++ full)

/-- The uncompressed-offset parsing loop of `Index::load`. -/
def loadUOffsGo (est : Int) : Nat → Bytes → Option Int → Except Err (List Int × Bytes)
  | 0, b, _ => .ok ([], b)
  | k + 1, b, prev =>
    match indexDecodeVarint b with
    | .error e => .error e
    | .ok (v, n) =>
      let u := match prev with
               | none => v
               | some p => p + est + v
      match loadUOffsGo est k (b.drop n) (some u) with
      | .error e => .error e
      | .ok (rest, b') => .ok (u :: rest, b')

/-- The compressed-offset parsing loop of `Index::load` (note: it moves the
predictor before reconstructing the offset). -/
def loadCOffsGo : Nat → Bytes → Int → Option Int → Except Err (List Int × Bytes)
  | 0, b, _, _ => .ok ([], b)
  | k + 1, b, cPredict, prev =>
    match indexDecodeVarint b with
    | .error e => .error e
    | .ok (v, n) =>
      match prev with
      | none =>
        match loadCOffsGo k (b.drop n) cPredict (some v) with
        | .error e => .error e
        | .ok (rest, b') => .ok (v :: rest, b')
      | some p =>
        let cPredict := cPredict + Int.tdiv v 2
        let c := p + cPredict + v
        match loadCOffsGo k (b.drop n) cPredict (some c) with
        | .error e => .error e
        | .ok (rest, b') => .ok (c :: rest, b')

/-- `Index::load` from `index.rs`: parse a serialized index frame, returning
the populated index and the remaining bytes. -/
def Index.load (idx : Index) (data : Bytes) : Except Err (Index × Bytes) :=
  if data.length ≤ 4 + S2_INDEX_HEADER.length + S2_INDEX_TRAILER.length then
    .error .bufferTooSmall
  else if data.getD 0 0 ≠ 0x99 then .error .corrupt
  else
    let chunkLen := data.getD 1 0 ||| (data.getD 2 0 <<< 8) ||| (data.getD 3 0 <<< 16)
    let b := data.drop 4
    if b.length < chunkLen then .error .bufferTooSmall
    else if b.take S2_INDEX_HEADER.length ≠ S2_INDEX_HEADER then .error .unsupported
    else
      let b := b.drop S2_INDEX_HEADER.length
      match indexDecodeVarint b with
      | .error e => .error e
      | .ok (vU, n) =>
        if vU < 0 then .error .corrupt
        else
          let b := b.drop n
          match indexDecodeVarint b with
          | .error e => .error e
          | .ok (vC, n) =>
            let b := b.drop n
            match indexDecodeVarint b with
            | .error e => .error e
            | .ok (vE, n) =>
              if vE < 0 then .error .corrupt
              else
                let b := b.drop n
                match indexDecodeVarint b with
                | .error e => .error e
                | .ok (vN, n) =>
                  if vN < 0 ∨ vN > (MAX_INDEX_ENTRIES : Int) then .error .corrupt
                  else
                    let entries := vN.toNat
                    let b := b.drop n
                    match b with
                    | [] => .error .corrupt
                    | flag :: b =>
                      let ures : Except Err (List Int × Bytes) :=
                        if flag = 1 then loadUOffsGo vE entries b none
                        else .ok ((List.range entries).map fun i => (i : Int) * vE, b)
                      match ures with
                      | .error e => .error e
                      | .ok (uOffs, b) =>
                        match loadCOffsGo entries b (Int.tdiv vE 2) none with
                        | .error e => .error e
                        | .ok (cOffs, b) =>
                          if b.length < 4 + S2_INDEX_TRAILER.length then .error .corrupt
                          else
                            let totalSizePos := b.length - S2_INDEX_TRAILER.length - 4
                            let trailerPos := b.length - S2_INDEX_TRAILER.length
                            if (b.drop trailerPos).take S2_INDEX_TRAILER.length ≠
                                S2_INDEX_TRAILER then .error .corrupt
                            else
                              let remaining := b.drop (totalSizePos + 4 + S2_INDEX_TRAILER.length)
                              let info := List.zipWith (fun c u => IndexEntry.mk c u) cOffs uOffs
                              .ok ({ idx with
                                totalUncompressed := vU,
                                totalCompressed := vC,
                                estBlockUncomp := vE,
                                info := info }, remaining)

/-! ## Stream layer (`crc.rs`, `writer.rs`, `reader.rs`)

The checksum function is the one thing here not embedded from sources in the
repository: `crc.rs` delegates to the external `crc32fast` crate. -/

/-- Modelled from the spec: one bit step of reflected CRC32C (Castagnoli
polynomial `0x82F63B78`); the body of the `crc32fast` crate used by
`crc.rs` is not part of the repository sources. -/
def crc32cBits (c : Nat) : Nat → Nat
  | 0 => c
  | k + 1 => crc32cBits (if c % 2 = 1 then Nat.xor (c >>> 1) 0x82F63B78 else c >>> 1) k

/-- Modelled from the spec: CRC32C over `data` (init and final XOR with all
ones, eight bit-steps per byte). -/
def crc32c (data : Bytes) : Nat :=
  Nat.xor (data.foldl (fun c b => crc32cBits (Nat.xor c (b % 256)) 8) 0xFFFFFFFF) 0xFFFFFFFF

/-- `crc` from `crc.rs`: the checksum with the Snappy mask
`rotate_right(15)` plus `0xa282ead8` (wrapping). -/
def crc (data : Bytes) : Nat :=
  let c := crc32c data
  (((c >>> 15) ||| ((c <<< 17) % 2 ^ 32)) + 0xa282ead8) % 2 ^ 32

/-- `MAGIC_CHUNK` from `constants.rs` (`\xff\x06\x00\x00S2sTwO`). -/
def MAGIC_CHUNK : Bytes := [0xff, 6, 0, 0, 83, 50, 115, 84, 119, 79]

/-- `MAGIC_CHUNK_SNAPPY` from `constants.rs` (`\xff\x06\x00\x00sNaPpY`). -/
def MAGIC_CHUNK_SNAPPY : Bytes := [0xff, 6, 0, 0, 115, 78, 97, 80, 112, 89]

/-- The state of `Writer` from `writer.rs` that the byte stream depends on
(no padding, default block size; `total_written` only feeds padding and is
dropped). -/
structure WriterState where
  out : Bytes
  buf : Bytes
  wroteHeader : Bool
  deriving Repr

/-- `Writer::flush_block` from `writer.rs`: magic on first flush, then one
`0x00` chunk holding the masked CRC of the uncompressed buffer followed by
its block encoding.  `none` is exhausted encoder fuel or the
oversized-chunk error path. -/
def flushBlock (w : WriterState) (fuelE : Nat) : Option WriterState :=
  if w.buf.length = 0 then some w
  else
    let out := if w.wroteHeader then w.out else w.out ++ MAGIC_CHUNK
    match encode w.buf fuelE with
    | none => none
    | some compressed =>
      let checksum := crc w.buf
      let chunkLen := compressed.length + 4
      if chunkLen > 2 ^ 24 - 1 then none
      else
        some ⟨out ++ [0, chunkLen % 256, (chunkLen >>> 8) % 256, (chunkLen >>> 16) % 256] ++
          le32 checksum ++ compressed, [], true⟩

/-- `Writer::write` (driven to completion, i.e. `write_all`): fill the
block buffer, flushing whenever it is full. -/
def writerWrite (w : WriterState) (data : Bytes) (blockSize : Nat) (fuelE : Nat) :
    Nat → Option WriterState
  | 0 => none
  | fuel + 1 =>
    if data.length = 0 then some w
    else
      let space := blockSize - w.buf.length
      if space = 0 then
        match flushBlock w fuelE with
        | none => none
        | some w' => writerWrite w' data blockSize fuelE fuel
      else
        let toWrite := min data.length space
        writerWrite ⟨w.out, w.buf ++ data.take toWrite, w.wroteHeader⟩ (data.drop toWrite)
          blockSize fuelE fuel

/-- Dropping the `Writer`: flush the final partial block (no padding
configured), yielding the full stream bytes. -/
def writerClose (w : WriterState) (fuelE : Nat) : Option Bytes :=
  (flushBlock w fuelE).map WriterState.out

/-- Write a sequence of `write` calls through a fresh default `Writer`
(block size `DEFAULT_BLOCK_SIZE = 1 MiB`) and close it. -/
def writeStream (chunks : List Bytes) (fuelE : Nat) : Option Bytes :=
  match chunks.foldlM (fun w c => writerWrite w c (1 <<< 20) fuelE (c.length + 2)) ⟨[], [], false⟩ with
  | none => none
  | some w => writerClose w fuelE

/-- The error kinds `Reader` surfaces as `io::Error` (`reader.rs`). -/
inductive ReadErr where
  | invalidStreamId
  | unknownChunk
  | chunkTooSmall
  | decodeFailed
  | blockTooLarge
  | crcMismatch
  | truncated
  deriving DecidableEq, Repr

/-- `Reader::read_chunk` from `reader.rs`, iterated to end of stream
(`read_to_end`): dispatch on the chunk type, verify CRCs of data chunks,
skip skippable chunks, reject unknown ones.  A short header read is end of
stream (the Rust code maps `UnexpectedEof` on the 4-byte header to EOF);
short reads inside a chunk are errors. -/
def readChunks (data : Bytes) (maxBlock : Nat) (acc : Bytes) : Nat → Option (Except ReadErr Bytes)
  | 0 => none
  | fuel + 1 =>
    if data.length < 4 then some (.ok acc)
    else
      let t := data.getD 0 0
      let chunkLen := data.getD 1 0 ||| (data.getD 2 0 <<< 8) ||| (data.getD 3 0 <<< 16)
      let rest := data.drop 4
      if t = 0 then
        if chunkLen < 4 then some (.error .chunkTooSmall)
        else if rest.length < 4 then some (.error .truncated)
        else
          let expected := rest.getD 0 0 + 256 * rest.getD 1 0 + 65536 * rest.getD 2 0 +
            16777216 * rest.getD 3 0
          let dataLen := chunkLen - 4
          if rest.length < 4 + dataLen then some (.error .truncated)
          else
            match decode ((rest.drop 4).take dataLen) with
            | none => none
            | some (.error _) => some (.error .decodeFailed)
            | some (.ok decompressed) =>
              if decompressed.length > maxBlock then some (.error .blockTooLarge)
              else if crc decompressed ≠ expected then some (.error .crcMismatch)
              else readChunks (rest.drop (4 + dataLen)) maxBlock (acc ++ decompressed) fuel
      else if t = 1 then
        if chunkLen < 4 then some (.error .chunkTooSmall)
        else if rest.length < 4 then some (.error .truncated)
        else
          let expected := rest.getD 0 0 + 256 * rest.getD 1 0 + 65536 * rest.getD 2 0 +
            16777216 * rest.getD 3 0
          let dataLen := chunkLen - 4
          if dataLen > maxBlock then some (.error .blockTooLarge)
          else if rest.length < 4 + dataLen then some (.error .truncated)
          else
            let payload := (rest.drop 4).take dataLen
            if crc payload ≠ expected then some (.error .crcMismatch)
            else readChunks (rest.drop (4 + dataLen)) maxBlock (acc ++ payload) fuel
      else if t = 0xfe ∨ t = 0x99 ∨ t = 0xff ∨ (0x80 ≤ t ∧ t ≤ 0xfd) then
        if rest.length < chunkLen then some (.error .truncated)
        else readChunks (rest.drop chunkLen) maxBlock acc fuel
      else some (.error .unknownChunk)

/-- `Reader` over a byte source, read to the end with default settings
(`max_block_size = 4 MiB`): verify the stream identifier, then consume
chunks. -/
def readAll (stream : Bytes) (fuel : Nat) : Option (Except ReadErr Bytes) :=
  if stream.length < MAGIC_CHUNK.length then some (.error .truncated)
  else if stream.take 10 ≠ MAGIC_CHUNK ∧ stream.take 10 ≠ MAGIC_CHUNK_SNAPPY then
    some (.error .invalidStreamId)
  else readChunks (stream.drop 10) (4 <<< 20) [] fuel

/-! ## Spec-side definitions -/

/-- Written from the spec (claim C5): score a candidate as
`length - (s - next_emit) + (1 if s == next_emit else 0) - emit_cost`,
to be compared with the source's `scoreMatch`. -/
def scoreMatchSpec (m : Match) (nextEmit : Nat) : Int :=
  (m.length : Int) - ((m.s : Int) - (nextEmit : Int)) +
    (if m.s = nextEmit then 1 else 0) -
    (if m.rep then (emitRepeatSize (m.s - m.offset) m.length : Int)
     else (emitCopySize (m.s - m.offset) m.length : Int))

/-! ## Concrete inputs used by the claim theorems -/

/-- A 32-byte input on which the Fast encoder emits an invalid copy: after
the eight-byte-stride extension breaks on a mismatch, the byte-tail loop
keeps comparing against the stale (unadvanced) `candidate` cursor and
overextends the match. -/
def c1Input : Bytes :=
  [0, 255, 255, 0, 255, 0, 255, 255, 0, 255, 255, 255, 255, 0, 255, 0, 255, 255, 0, 255,
   255, 0, 255, 0, 0, 255, 255, 255, 0, 255, 0, 255]

/-- What `decode` makes of `encode c1Input` (bytes 20–23 differ from
`c1Input`). -/
def c1Wrong : Bytes :=
  [0, 255, 255, 0, 255, 0, 255, 255, 0, 255, 0, 255, 255, 0, 255, 0, 255, 255, 0, 255,
   0, 255, 255, 0, 0, 255, 255, 255, 0, 255, 0, 255]

/-- A 104-byte input on which the Better level produces a larger block than
the Fast level (`46 > 44` payload bytes), while both encodings decode back
to the input. -/
def c7Input : Bytes :=
  [128, 38, 33, 130, 243, 211, 130, 243, 243, 211, 130, 186, 211, 2, 53, 199, 128, 38,
   33, 130, 243, 211, 130, 243, 243, 211, 130, 186, 211, 128, 38, 33, 130, 243, 211,
   130, 243, 243, 211, 130, 186, 211, 2, 53, 199, 128, 38, 33, 130, 243, 211, 130, 243,
   243, 211, 130, 186, 121, 211, 130, 186, 211, 2, 53, 199, 128, 38, 33, 130, 38, 33,
   130, 243, 211, 130, 243, 243, 211, 130, 186, 211, 2, 53, 199, 128, 38, 33, 130, 243,
   211, 130, 243, 243, 211, 130, 2, 53, 199, 101, 128, 38, 33, 130, 243]

/-- The two-entry index whose serialization `Index::load` mangles. -/
def idxC10 : Index := ⟨-1, -1, [⟨0, 0⟩, ⟨2, 1048576⟩], 0⟩

instance {α β : Type} [DecidableEq α] [DecidableEq β] : DecidableEq (Except α β) := fun a b =>
  match a, b with
  | .ok x, .ok y =>
    if h : x = y then .isTrue (by rw [h]) else .isFalse (fun hc => by cases hc; exact h rfl)
  | .error x, .error y =>
    if h : x = y then .isTrue (by rw [h]) else .isFalse (fun hc => by cases hc; exact h rfl)
  | .ok _, .error _ => .isFalse (fun hc => by cases hc)
  | .error _, .ok _ => .isFalse (fun hc => by cases hc)

def InfoSorted (info : List IndexEntry) : Prop :=
  List.Pairwise (fun a b => a.uncompressedOffset < b.uncompressedOffset) info

/-! ## Claim theorems -/

/-! ## Properties -/

theorem decodeLiteralLength_consumed {l : Bytes} {len c : Nat}
    (h : decodeLiteralLength l = some (.ok (len, c))) : 1 ≤ c ∧ 1 ≤ len := by
  match l with
  | [] => simp [decodeLiteralLength] at h
  | b0 :: rest =>
    simp only [decodeLiteralLength] at h
    split_ifs at h <;>
      first
      | (simp only [Option.some.injEq, Except.ok.injEq, Prod.mk.injEq] at h; omega)
      | (rcases rest with _ | ⟨b1, _ | ⟨b2, _ | ⟨b3, _ | ⟨b4, rest⟩⟩⟩⟩ <;>
          simp only [Option.some.injEq, Except.ok.injEq, Prod.mk.injEq,
            reduceCtorEq] at h <;> omega)

theorem decodeCopy1_consumed {l : Bytes} {last o len c : Nat}
    (h : decodeCopy1 l last = .ok (o, len, c)) : 2 ≤ c := by
  match l with
  | [] => simp [decodeCopy1] at h
  | [b0] => simp [decodeCopy1] at h
  | b0 :: b1 :: rest =>
    simp only [decodeCopy1] at h
    split_ifs at h <;>
      first
      | (simp only [Except.ok.injEq, Prod.mk.injEq] at h; omega)
      | (rcases rest with _ | ⟨b2, _ | ⟨b3, _ | ⟨b4, rest⟩⟩⟩ <;>
          simp only [Except.ok.injEq, Prod.mk.injEq, reduceCtorEq] at h <;> omega)

theorem emitLiteral_len (lit : Bytes) :
    (emitLiteral lit).length =
      if lit.length = 0 then 0
      else lit.length +
        (if lit.length - 1 ≤ 59 then 1
         else if lit.length - 1 ≤ 255 then 2
         else if lit.length - 1 ≤ 65535 then 3
         else if lit.length - 1 ≤ 16777215 then 4
         else 5) := by
  rw [emitLiteral]
  simp only [beq_iff_eq]
  split_ifs <;> simp <;> omega

theorem emitRepeat_len (offset length : Nat) :
    (emitRepeat offset length).length =
      if length - 4 ≤ 4 then 2
      else if length - 4 < 8 ∧ offset < 2048 then 2
      else if length - 4 < (1 <<< 8) + 4 then 3
      else if length - 4 < (1 <<< 16) + (1 <<< 8) then 4
      else 5 := by
  rw [emitRepeat]
  split_ifs <;> simp

theorem emitCopy4_len (offset length : Nat) :
    (emitCopy4 offset length).length =
      if length > 64 then
        if length - 64 ≥ 4 then 5 + (emitRepeat offset (length - 64)).length
        else if length - 64 = 0 then 5 else 10
      else if length = 0 then 0 else 5 := by
  rw [emitCopy4]
  simp only [beq_iff_eq]
  split_ifs <;> simp [le32] <;> omega

theorem emitCopy_len (offset length : Nat) :
    (emitCopy offset length).length =
      if offset ≥ 65536 then (emitCopy4 offset length).length
      else if length > 64 then
        if offset < 2048 then 2 + (emitRepeat offset (length - 8)).length
        else 3 + (emitRepeat offset (length - 60)).length
      else if length ≥ 12 ∨ offset ≥ 2048 then 3
      else 2 := by
  rw [emitCopy]
  split_ifs <;> simp <;> omega


theorem literalExtraSize_toNat (n : Nat) (hn : 1 ≤ n) :
    (literalExtraSize n).toNat =
      if n < 60 then 1 else if n < 256 then 2 else if n < 65536 then 3
      else if n < 16777216 then 4 else 5 := by
  rw [literalExtraSize]
  split_ifs <;> simp_all <;> omega

theorem copyRepeatBound (off L n : Nat) (hoff : off ≤ n) (hL : L ≤ n) (hn : 32 ≤ n) :
    (emitCopy off L).length ≤ (literalExtraSize n).toNat + n / 32 + 1 ∧
    (emitRepeat off L).length ≤ (literalExtraSize n).toNat + n / 32 + 1 := by
  rw [literalExtraSize_toNat n (by omega)]
  constructor
  · rw [emitCopy_len, emitCopy4_len]
    split_ifs <;> (try simp only [emitRepeat_len]) <;> (try split_ifs) <;> omega
  · rw [emitRepeat_len]
    split_ifs <;> omega


theorem bitsLenGo_le (k : Nat) : ∀ n, bitsLenGo k n ≤ k := by
  induction k with
  | zero => intro n; simp [bitsLenGo]
  | succ k ih =>
    intro n
    rw [bitsLenGo]
    split_ifs
    · omega
    · have := ih (n / 2); omega

theorem bitsLenGo_lt (k : Nat) : ∀ n, n < 2 ^ k → n < 2 ^ bitsLenGo k n := by
  induction k with
  | zero => intro n h; simpa [bitsLenGo] using h
  | succ k ih =>
    intro n h
    rw [bitsLenGo]
    split_ifs with h0
    · omega
    · have hdiv : n / 2 < 2 ^ k := by
        rw [pow_succ] at h
        omega
      have := ih (n / 2) hdiv
      rw [pow_succ]
      omega

theorem encodeVarintGo_len (k : Nat) : ∀ v j, 1 ≤ j → v < 2 ^ (7 * j) →
    (encodeVarintGo k v).length ≤ j := by
  induction k with
  | zero => intro v j h1 _; simp [encodeVarintGo]; omega
  | succ k ih =>
    intro v j h1 hv
    rw [encodeVarintGo]
    split_ifs with hbig
    · have hj2 : 2 ≤ j := by
        by_contra hcon
        have : j = 1 := by omega
        subst this
        norm_num at hv
        omega
      have hrec : v >>> 7 < 2 ^ (7 * (j - 1)) := by
        rw [Nat.shiftRight_eq_div_pow]
        have : (2 : Nat) ^ (7 * j) = 2 ^ (7 * (j - 1)) * 2 ^ 7 := by
          rw [← pow_add]
          congr 1
          omega
        rw [this] at hv
        norm_num at hv ⊢
        omega
      have := ih (v >>> 7) (j - 1) (by omega) hrec
      simp only [List.length_cons]
      omega
    · simp; omega

theorem encodeVarint_len (n : Nat) (h : n < 2 ^ 64) :
    (encodeVarint n).length ≤ ((if n = 0 then 0 else bitsLen n) + 7) / 7 := by
  rw [encodeVarint, Nat.mod_eq_of_lt h]
  split_ifs with h0
  · subst h0
    refine encodeVarintGo_len 10 0 1 (by omega) (by norm_num)
  · have hb := bitsLenGo_lt 64 n h
    have hble := bitsLenGo_le 64 n
    refine encodeVarintGo_len 10 n ((bitsLen n + 7) / 7) (by omega) ?_
    calc n < 2 ^ bitsLen n := hb
    _ ≤ 2 ^ (7 * ((bitsLen n + 7) / 7)) := Nat.pow_le_pow_right (by omega) (by omega)


theorem maxEncodedLen_ok (L m : Nat) (h : maxEncodedLen L = .ok m) :
    m = L + ((if L = 0 then 0 else bitsLen L) + 7) / 7 +
      (literalExtraSize L).toNat + (L / 32 + 1) ∧ L ≤ 0xffffffff := by
  rw [maxEncodedLen] at h
  by_cases h1 : L > 0xffffffff
  · rw [if_pos h1] at h
    exact absurd h (by simp)
  · rw [if_neg h1] at h
    try dsimp only at h
    by_cases h2 : L + ((if L = 0 then 0 else bitsLen L) + 7) / 7 +
        (literalExtraSize L).toNat + (L / 32 + 1) > 0xffffffff
    · rw [if_pos h2] at h
      exact absurd h (by simp)
    · rw [if_neg h2] at h
      exact ⟨(Except.ok.inj h).symm, by omega⟩

theorem emitLiteral_le (lit : Bytes) (hne : lit.length ≠ 0) :
    (emitLiteral lit).length ≤ lit.length + (literalExtraSize lit.length).toNat := by
  rw [emitLiteral_len, if_neg hne, literalExtraSize_toNat _ (by omega)]
  split_ifs <;> omega

theorem encodeBlock_cases (src : Bytes) (fuel : Nat) (n : Bytes)
    (h : encodeBlock src fuel = some n) :
    n = [] ∨ n.length < src.length - src.length / 32 := by
  rw [encodeBlock] at h
  split_ifs at h with h1 htb <;>
    first
    | exact .inl (by simpa using h.symm)
    | · try dsimp only at h
        split at h
        · exact absurd h (by simp)
        · exact .inl (by simpa using h.symm)
        · try dsimp only at h
          split_ifs at h <;>
            first
            | exact .inl (by simpa using h.symm)
            | (right
               simp only [Option.some.injEq] at h
               subst h
               omega)

theorem encodeBlockSnappy_cases (src : Bytes) (fuel : Nat) (n : Bytes)
    (h : encodeBlockSnappy src fuel = some n) :
    n = [] ∨ n.length < src.length - src.length / 32 := by
  rw [encodeBlockSnappy] at h
  split_ifs at h with h1
  · exact .inl (by simpa using h.symm)
  · try dsimp only at h
    split at h
    · exact absurd h (by simp)
    · exact .inl (by simpa using h.symm)
    · try dsimp only at h
      split_ifs at h <;>
        first
        | exact .inl (by simpa using h.symm)
        | (right
           simp only [Option.some.injEq] at h
           subst h
           omega)


theorem encode_fast_bound (x : Bytes) (fuel : Nat) (out : Bytes) (m : Nat)
    (hm : maxEncodedLen x.length = .ok m) (h : encode x fuel = some out) :
    out.length ≤ m := by
  obtain ⟨hmeq, hle⟩ := maxEncodedLen_ok _ _ hm
  have hva := encodeVarint_len x.length (by omega)
  rw [encode] at h
  rw [if_neg (by omega)] at h
  dsimp only at h
  split_ifs at h with h0 h32
  · simp only [Option.some.injEq] at h
    subst h
    have hles0 : (literalExtraSize (0 : Nat)).toNat = 0 := by simp [literalExtraSize]
    rw [h0] at hva hmeq ⊢
    omega
  · simp only [Option.some.injEq] at h
    subst h
    rw [List.length_append]
    have hlit := emitLiteral_le x (by omega)
    omega
  · split at h
    · exact absurd h (by simp)
    · rename_i nb hnb
      split_ifs at h with hpos
      · rcases encodeBlock_cases x fuel nb hnb with rfl | hlt
        · simp at hpos
        · simp only [Option.some.injEq] at h
          subst h
          rw [List.length_append]
          omega
      · simp only [Option.some.injEq] at h
        subst h
        rw [List.length_append]
        have hlit := emitLiteral_le x (by omega)
        omega

theorem encode_snappy_bound (x : Bytes) (fuel : Nat) (out : Bytes) (m : Nat)
    (hm : maxEncodedLen x.length = .ok m) (h : encodeSnappy x fuel = some out) :
    out.length ≤ m := by
  obtain ⟨hmeq, hle⟩ := maxEncodedLen_ok _ _ hm
  have hva := encodeVarint_len x.length (by omega)
  rw [encodeSnappy] at h
  rw [if_neg (by omega)] at h
  dsimp only at h
  split_ifs at h with h0 h32
  · simp only [Option.some.injEq] at h
    subst h
    have hles0 : (literalExtraSize (0 : Nat)).toNat = 0 := by simp [literalExtraSize]
    rw [h0] at hva hmeq ⊢
    omega
  · simp only [Option.some.injEq] at h
    subst h
    rw [List.length_append]
    have hlit := emitLiteral_le x (by omega)
    omega
  · split at h
    · exact absurd h (by simp)
    · rename_i nb hnb
      split_ifs at h with hpos
      · rcases encodeBlockSnappy_cases x fuel nb hnb with rfl | hlt
        · simp at hpos
        · simp only [Option.some.injEq] at h
          subst h
          rw [List.length_append]
          omega
      · simp only [Option.some.injEq] at h
        subst h
        rw [List.length_append]
        have hlit := emitLiteral_le x (by omega)
        omega


theorem seqNat_eq {α : Sort _} (n : Nat) (k : Nat → α) : seqNat n k = k n := by
  cases n <;> rfl

theorem trailingZeros64Go_le (x : Nat) : ∀ k, trailingZeros64Go x k ≤ 64 := by
  intro k
  induction k generalizing x with
  | zero => simp [trailingZeros64Go]
  | succ k ih =>
    rw [trailingZeros64Go]
    split_ifs
    · omega
    · exact ih (x / 2)

theorem trailingZeros64_le (x : Nat) : trailingZeros64 x ≤ 64 :=
  trailingZeros64Go_le x 64

theorem emitLiteral_le5 (l : Bytes) : (emitLiteral l).length ≤ l.length + 5 := by
  rw [emitLiteral_len]
  split_ifs <;> omega

theorem betterExtendGo_le (src : Bytes) :
    ∀ k s c, (betterExtendGo src k s c).1 ≤ max s src.length := by
  intro k
  induction k with
  | zero => intro s c; simp [betterExtendGo]
  | succ k ih =>
    intro s c
    rw [betterExtendGo, seqNat_eq, seqNat_eq]
    split_ifs <;> (try split_ifs) <;>
      · have hr1 := ih (s + 1) (c + 1)
        have hr8 := ih (s + 8) (c + 8)
        have ht := trailingZeros64_le (load64 src s ^^^ load64 src c)
        simp only [apply_ite (Prod.fst : Nat × Nat → Nat)] at *
        try split_ifs
        all_goals simp only [max_le_iff, le_max_iff] at *
        all_goals omega

theorem extendBackGo_le (src : Bytes) (ne : Nat) :
    ∀ k c s, (extendBackGo src ne k c s).2 ≤ s := by
  intro k
  induction k with
  | zero => intro c s; simp [extendBackGo]
  | succ k ih =>
    intro c s
    rw [extendBackGo]
    split_ifs
    · have := ih (c - 1) (s - 1)
      omega
    · simp


theorem better_loop_bound (src : Bytes) (sLimit dstLimit : Nat)
    (hsl : sLimit ≤ src.length) (hn : 32 ≤ src.length) : ∀ fuel,
    (∀ lT sT nextEmit s cv rep out out' ne',
      out.length ≤ dstLimit →
      betterFind src sLimit dstLimit lT sT nextEmit s cv rep out fuel =
        some (.done out' ne') →
      out'.length ≤ dstLimit + 5 +
        ((literalExtraSize src.length).toNat + src.length / 32 + 1)) ∧
    (∀ lT sT nextEmit s nextS candidateL cv rep out out' ne',
      out.length ≤ dstLimit → s ≤ src.length →
      betterEmit src sLimit dstLimit lT sT nextEmit s nextS candidateL cv rep out fuel =
        some (.done out' ne') →
      out'.length ≤ dstLimit + 5 +
        ((literalExtraSize src.length).toNat + src.length / 32 + 1)) := by
  intro fuel
  induction fuel with
  | zero =>
    constructor
    · intro lT sT nextEmit s cv rep out out' ne' hout h
      exact absurd h (by rw [betterFind]; simp)
    · intro lT sT nextEmit s nextS candidateL cv rep out out' ne' hout hslen h
      exact absurd h (by rw [betterEmit]; simp)
  | succ f ih =>
    obtain ⟨ihF, ihE⟩ := ih
    constructor
    · intro lT sT nextEmit s cv rep out out' ne' hout h
      rw [betterFind, seqNat_eq, seqNat_eq, seqNat_eq, seqNat_eq] at h
      by_cases hstop : s + (s - nextEmit) / 128 + 1 > sLimit
      · rw [if_pos hstop] at h
        simp only [Option.some.injEq, BlockOut.done.injEq] at h
        rcases h with ⟨rfl, rfl⟩
        omega
      · rw [if_neg hstop] at h
        dsimp only at h
        split_ifs at h <;>
          first
          | exact ihE _ _ _ _ _ _ _ _ _ _ _ hout (by omega) h
          | exact ihF _ _ _ _ _ _ _ _ _ hout h
    · intro lT sT nextEmit s nextS candidateL cv rep out out' ne' hout hslen h
      rw [betterEmit, seqNat_eq, seqNat_eq] at h
      rcases hp : extendBack src nextEmit candidateL s with ⟨c1, s1⟩
      rw [hp] at h
      try dsimp only at h
      rw [seqNat_eq, seqNat_eq] at h
      have hs1 : s1 ≤ s := by
        have := extendBackGo_le src nextEmit (s + 1) candidateL s
        rw [extendBack] at hp
        rw [hp] at this
        exact this
      by_cases hchk : out.length + (s1 - nextEmit) > dstLimit
      · rw [if_pos hchk] at h
        simp at h
      · rw [if_neg hchk] at h
        try dsimp only at h
        rcases hext : betterExtend src (s1 + 4) (c1 + 4) with ⟨s2, c2⟩
        rw [hext] at h
        try dsimp only at h
        rw [seqNat_eq, seqNat_eq] at h
        have hs2 : s2 ≤ max (s1 + 4) src.length := by
          have := betterExtendGo_le src (src.length + 1) (s1 + 4) (c1 + 4)
          rw [betterExtend] at hext
          rw [hext] at this
          exact this
        have hL : s2 - s1 ≤ src.length := by
          rcases le_max_iff.mp hs2 with hc | hc <;> omega
        by_cases hskip : s1 - c1 > 65535 ∧ s2 - s1 ≤ 5 ∧ rep ≠ s1 - c1
        · rw [if_pos hskip] at h
          by_cases hdone : nextS + 1 ≥ sLimit
          · rw [if_pos hdone] at h
            simp only [Option.some.injEq, BlockOut.done.injEq] at h
            rcases h with ⟨rfl, rfl⟩
            omega
          · rw [if_neg hdone] at h
            exact ihF _ _ _ _ _ _ _ _ _ hout h
        · rw [if_neg hskip] at h
          have hlit := emitLiteral_le5 (List.take (s1 - nextEmit) (List.drop nextEmit src))
          have hlst : (List.take (s1 - nextEmit) (List.drop nextEmit src)).length ≤
              s1 - nextEmit := by
            simp [List.length_take]
          have hcopy := copyRepeatBound (s1 - c1) (s2 - s1) src.length (by omega) hL hn
          by_cases hrep : rep = s1 - c1
          · rw [if_pos hrep] at h
            try dsimp only at h
            by_cases hdone2 : s2 ≥ sLimit
            · rw [if_pos hdone2] at h
              simp only [Option.some.injEq, BlockOut.done.injEq] at h
              rcases h with ⟨rfl, rfl⟩
              simp only [List.length_append]
              omega
            · rw [if_neg hdone2] at h
              by_cases hbail : (out ++ emitLiteral (List.take (s1 - nextEmit)
                  (List.drop nextEmit src)) ++ emitRepeat (s1 - c1) (s2 - s1)).length >
                  dstLimit
              · rw [if_pos hbail] at h
                simp at h
              · rw [if_neg hbail] at h
                exact ihF _ _ _ _ _ _ _ _ _ (by omega) h
          · rw [if_neg hrep] at h
            try dsimp only at h
            by_cases hdone2 : s2 ≥ sLimit
            · rw [if_pos hdone2] at h
              simp only [Option.some.injEq, BlockOut.done.injEq] at h
              rcases h with ⟨rfl, rfl⟩
              simp only [List.length_append]
              omega
            · rw [if_neg hdone2] at h
              by_cases hbail : (out ++ emitLiteral (List.take (s1 - nextEmit)
                  (List.drop nextEmit src)) ++ emitCopy (s1 - c1) (s2 - s1)).length >
                  dstLimit
              · rw [if_pos hbail] at h
                simp at h
              · rw [if_neg hbail] at h
                exact ihF _ _ _ _ _ _ _ _ _ (by omega) h


theorem encodeBlockBetter_bound (src : Bytes) (fuel : Nat) (n : Bytes)
    (h : encodeBlockBetter src fuel = some n) :
    n = [] ∨ n.length ≤ src.length + (literalExtraSize src.length).toNat := by
  rw [encodeBlockBetter] at h
  rw [show MIN_NON_LITERAL_BLOCK_SIZE = 32 from rfl,
    show INPUT_MARGIN = 8 from rfl] at h
  split_ifs at h with h1 h2
  · exact .inl (by simpa using h.symm)
  · exact .inl (by simpa using h.symm)
  · try dsimp only at h
    split at h
    · exact absurd h (by simp)
    · exact .inl (by simpa using h.symm)
    · rename_i out ne hloop
      have hinv := (better_loop_bound src (src.length - 8)
        (src.length - src.length / 32 - 6) (by omega) (by omega) fuel).1
        _ _ _ _ _ _ _ out ne (by simp) hloop
      split_ifs at h with hne hgate
      · exact .inl (by simpa using h.symm)
      · right
        simp only [Option.some.injEq] at h
        subst h
        rw [List.length_append]
        have hlit := emitLiteral_le5 (src.drop ne)
        rw [List.length_drop] at hlit
        omega
      · right
        simp only [Option.some.injEq] at h
        subst h
        omega

theorem encode_better_bound (x : Bytes) (fuel : Nat) (out : Bytes) (m : Nat)
    (hm : maxEncodedLen x.length = .ok m) (h : encodeBetter x fuel = some out) :
    out.length ≤ m := by
  obtain ⟨hmeq, hle⟩ := maxEncodedLen_ok _ _ hm
  have hva := encodeVarint_len x.length (by omega)
  rw [encodeBetter] at h
  rw [if_neg (by omega)] at h
  dsimp only at h
  split_ifs at h with h0 h32
  · simp only [Option.some.injEq] at h
    subst h
    have hles0 : (literalExtraSize (0 : Nat)).toNat = 0 := by simp [literalExtraSize]
    rw [h0] at hva hmeq ⊢
    omega
  · simp only [Option.some.injEq] at h
    subst h
    rw [List.length_append]
    have hlit := emitLiteral_le x (by omega)
    omega
  · split at h
    · exact absurd h (by simp)
    · rename_i nb hnb
      split_ifs at h with hpos
      · rcases encodeBlockBetter_bound x fuel nb hnb with rfl | hlt
        · simp at hpos
        · simp only [Option.some.injEq] at h
          subst h
          rw [List.length_append]
          omega
      · simp only [Option.some.injEq] at h
        subst h
        rw [List.length_append]
        have hlit := emitLiteral_le x (by omega)
        omega

theorem seqInt_eq {α : Sort _} (i : Int) (k : Int → α) : seqInt i k = k i := by
  cases i <;> rw [seqInt] <;> rw [seqNat_eq]

theorem seqMatch_eq {α : Sort _} (m : Match) (k : Match → α) : seqMatch m k = k m := by
  obtain ⟨o, s, l, sc, r⟩ := m
  rw [seqMatch]
  rw [seqNat_eq, seqNat_eq, seqNat_eq, seqInt_eq]
  cases r <;> rfl

theorem matchAtExtendGo_le (src : Bytes) :
    ∀ k sPos mLen, matchAtExtendGo src k sPos mLen ≤ mLen + (src.length - sPos) := by
  intro k
  induction k with
  | zero => intro sPos mLen; simp [matchAtExtendGo]
  | succ k ih =>
    intro sPos mLen
    rw [matchAtExtendGo, seqNat_eq, seqNat_eq]
    split_ifs with h1 h2 h3
    · have := ih (sPos + 1) (mLen + 1)
      omega
    · omega
    · dsimp only
      split_ifs with h4
      · have := trailingZeros64_le (load64 src sPos ^^^ load64 src mLen)
        omega
      · have := ih (sPos + 8) (mLen + 8)
        omega
    · omega

theorem bestBackGo_spec (src : Bytes) (ne : Nat) :
    ∀ k o l s, (bestBackGo src ne k o l s).2.2 + (bestBackGo src ne k o l s).2.1 = s + l ∧
      (bestBackGo src ne k o l s).2.2 ≤ s := by
  intro k
  induction k with
  | zero => intro o l s; simp [bestBackGo]
  | succ k ih =>
    intro o l s
    rw [bestBackGo, seqNat_eq, seqNat_eq, seqNat_eq]
    split_ifs with h1
    · have := ih (o - 1) (l + 1) (s - 1)
      omega
    · simp

theorem matchAt_inv (src : Bytes) (offset s first : Nat) (rep : Bool) (best : Match)
    (ne : Nat) (hs4 : s + 4 ≤ src.length) :
    (matchAt src offset s first rep best ne).length = 0 ∨
      (matchAt src offset s first rep best ne).s +
        (matchAt src offset s first rep best ne).length ≤ src.length := by
  rw [matchAt]
  split_ifs with h1 h2
  · left; rfl
  · left; rfl
  · dsimp only
    split_ifs with h3
    · left; rfl
    · right
      dsimp only
      have hext := matchAtExtendGo_le src (src.length + 1) (s + 4) (4 + offset)
      rw [matchAtExtend] at *
      omega

theorem bestOf_cases (a b : Match) : bestOf a b = a ∨ bestOf a b = b := by
  rw [bestOf]
  split_ifs <;> simp

theorem MInv_bestOf (src : Bytes) (a b : Match)
    (ha : a.length = 0 ∨ a.s + a.length ≤ src.length)
    (hb : b.length = 0 ∨ b.s + b.length ≤ src.length) :
    (bestOf a b).length = 0 ∨ (bestOf a b).s + (bestOf a b).length ≤ src.length := by
  rcases bestOf_cases a b with h | h <;> rw [h] <;> assumption


theorem bestProbeS2_inv (src : Bytes) (lT sT : Nat → Nat) (nextEmit s rp : Nat)
    (cv1 : Nat) (best : Match)
    (hbest : best.length = 0 ∨ best.s + best.length ≤ src.length) :
    (bestProbeS2 src lT sT nextEmit s rp cv1 best).length = 0 ∨
      (bestProbeS2 src lT sT nextEmit s rp cv1 best).s +
        (bestProbeS2 src lT sT nextEmit s rp cv1 best).length ≤ src.length := by
  rw [bestProbeS2]
  dsimp only
  split_ifs with h1 h2
  · refine MInv_bestOf _ _ _ (MInv_bestOf _ _ _ (MInv_bestOf _ _ _ (MInv_bestOf _ _ _
      (MInv_bestOf _ _ _ hbest ?_) ?_) ?_) ?_) ?_ <;>
      exact matchAt_inv _ _ _ _ _ _ _ (by omega)
  · refine MInv_bestOf _ _ _ (MInv_bestOf _ _ _ (MInv_bestOf _ _ _ (MInv_bestOf _ _ _
      hbest ?_) ?_) ?_) ?_ <;>
      exact matchAt_inv _ _ _ _ _ _ _ (by omega)
  · exact hbest

theorem bestProbeS1_inv (src : Bytes) (lT sT : Nat → Nat) (nextEmit s rp : Nat)
    (cv : Nat) (best : Match)
    (hbest : best.length = 0 ∨ best.s + best.length ≤ src.length) :
    (bestProbeS1 src lT sT nextEmit s rp cv best).length = 0 ∨
      (bestProbeS1 src lT sT nextEmit s rp cv best).s +
        (bestProbeS1 src lT sT nextEmit s rp cv best).length ≤ src.length := by
  rw [bestProbeS1]
  dsimp only
  split_ifs with h1
  · refine bestProbeS2_inv _ _ _ _ _ _ _ _
      (MInv_bestOf _ _ _ (MInv_bestOf _ _ _ (MInv_bestOf _ _ _ (MInv_bestOf _ _ _
        hbest ?_) ?_) ?_) ?_) <;>
      exact matchAt_inv _ _ _ _ _ _ _ (by omega)
  · exact hbest

theorem bestProbeEnd_inv (src : Bytes) (sLimit : Nat) (lT : Nat → Nat)
    (nextEmit : Nat) (best : Match)
    (hbest : best.length = 0 ∨ best.s + best.length ≤ src.length) :
    (bestProbeEnd src sLimit lT nextEmit best).length = 0 ∨
      (bestProbeEnd src sLimit lT nextEmit best).s +
        (bestProbeEnd src sLimit lT nextEmit best).length ≤ src.length := by
  rw [bestProbeEnd]
  dsimp only
  split_ifs with h1 h2 h3 h4 h5
  all_goals
    repeat
      first
      | exact hbest
      | refine MInv_bestOf _ _ _ ?_ (matchAt_inv _ _ _ _ _ _ _ (by omega))

theorem bestProbeAt_inv (src : Bytes) (nextEmit s cv candidateL candidateS : Nat)
    (best : Match)
    (hbest : best.length = 0 ∨ best.s + best.length ≤ src.length)
    (hs4 : s + 4 ≤ src.length) :
    (bestProbeAt src nextEmit s cv candidateL candidateS best).length = 0 ∨
      (bestProbeAt src nextEmit s cv candidateL candidateS best).s +
        (bestProbeAt src nextEmit s cv candidateL candidateS best).length ≤
        src.length := by
  rw [bestProbeAt]
  dsimp only
  split_ifs with h1
  · refine MInv_bestOf _ _ _ (MInv_bestOf _ _ _ (MInv_bestOf _ _ _ (MInv_bestOf _ _ _
      hbest ?_) ?_) ?_) ?_ <;>
      exact matchAt_inv _ _ _ _ _ _ _ (by omega)
  · exact hbest

theorem bestProbeRep_inv (src : Bytes) (nextEmit s rp cv : Nat) (best : Match)
    (hbest : best.length = 0 ∨ best.s + best.length ≤ src.length)
    (hs5 : s + 5 ≤ src.length) :
    (bestProbeRep src nextEmit s rp cv best).length = 0 ∨
      (bestProbeRep src nextEmit s rp cv best).s +
        (bestProbeRep src nextEmit s rp cv best).length ≤ src.length := by
  rw [bestProbeRep]
  split_ifs with h1
  · exact MInv_bestOf _ _ _ hbest (matchAt_inv _ _ _ _ _ _ _ (by omega))
  · exact hbest

theorem bestProbe_inv (src : Bytes) (sLimit : Nat) (lT sT : Nat → Nat)
    (nextEmit s rp cv candidateL candidateS : Nat) (best : Match)
    (hbest : best.length = 0 ∨ best.s + best.length ≤ src.length)
    (hs8 : s + 8 ≤ src.length) :
    (bestProbe src sLimit lT sT nextEmit s rp cv candidateL candidateS best).length = 0 ∨
      (bestProbe src sLimit lT sT nextEmit s rp cv candidateL candidateS best).s +
        (bestProbe src sLimit lT sT nextEmit s rp cv candidateL candidateS best).length ≤
        src.length := by
  rw [bestProbe]
  have h1 := bestProbeRep_inv src nextEmit s rp cv _
    (bestProbeAt_inv src nextEmit s cv candidateL candidateS best hbest (by omega))
    (by omega)
  split_ifs with h2
  · exact bestProbeEnd_inv _ _ _ _ _ (bestProbeS1_inv _ _ _ _ _ _ _ _ h1)
  · exact h1


theorem best_loop_bound (src : Bytes) (sLimit dstLimit : Nat)
    (hsl : sLimit + 8 ≤ src.length) (hn : 32 ≤ src.length) : ∀ fuel,
    (∀ lT sT nextEmit s rp cv best out out' ne',
      out.length ≤ dstLimit →
      (best.length = 0 ∨ best.s + best.length ≤ src.length) →
      s + 8 ≤ src.length →
      bestSearch src sLimit dstLimit lT sT nextEmit s rp cv best out fuel =
        some (.done out' ne') →
      out'.length ≤ dstLimit + 5 +
        ((literalExtraSize src.length).toNat + src.length / 32 + 1)) ∧
    (∀ lT sT nextEmit s rp cv best out out' ne',
      out.length ≤ dstLimit →
      (best.length = 0 ∨ best.s + best.length ≤ src.length) →
      bestHandle src sLimit dstLimit lT sT nextEmit s rp cv best out fuel =
        some (.done out' ne') →
      out'.length ≤ dstLimit + 5 +
        ((literalExtraSize src.length).toNat + src.length / 32 + 1)) := by
  intro fuel
  induction fuel with
  | zero =>
    constructor
    · intro lT sT nextEmit s rp cv best out out' ne' hout hbest hs8 h
      exact absurd h (by rw [bestSearch]; simp)
    · intro lT sT nextEmit s rp cv best out out' ne' hout hbest h
      exact absurd h (by rw [bestHandle]; simp)
  | succ f ih =>
    obtain ⟨ihF, ihH⟩ := ih
    constructor
    · intro lT sT nextEmit s rp cv best out out' ne' hout hbest hs8 h
      rw [bestSearch, seqNat_eq, seqNat_eq, seqNat_eq, seqNat_eq, seqMatch_eq] at h
      dsimp only at h
      by_cases hstop :
          (if (s - nextEmit) / 256 + 1 > 64 then s + 64 else (s - nextEmit) / 256 + 1 + s) >
            sLimit
      · rw [if_pos hstop] at h
        exact ihH _ _ _ _ _ _ _ _ _ _ hout hbest h
      · rw [if_neg hstop] at h
        rw [seqNat_eq, seqNat_eq] at h
        try dsimp only at h
        have hbp := bestProbe_inv src sLimit lT sT nextEmit s rp cv
          (lT (hash8 cv 19)) (sT (hash4 cv 16)) best hbest hs8
        split_ifs at h <;>
          first
          | exact ihH _ _ _ _ _ _ _ _ _ _ hout hbp h
          | exact ihF _ _ _ _ _ _ _ _ _ _ hout hbp (by omega) h
    · intro lT sT nextEmit s rp cv best out out' ne' hout hbest h
      rw [bestHandle, seqNat_eq, seqMatch_eq] at h
      by_cases h0 : best.length = 0
      · rw [if_pos h0] at h
        simp only [Option.some.injEq, BlockOut.done.injEq] at h
        rcases h with ⟨rfl, rfl⟩
        omega
      · rw [if_neg h0] at h
        have hbs : best.s + best.length ≤ src.length := hbest.resolve_left h0
        by_cases hrep : best.rep = true
        · rw [if_pos hrep] at h
          try dsimp only at h
          by_cases hbail : out.length + (best.s - nextEmit) > dstLimit
          · rw [if_pos hbail] at h
            simp at h
          · rw [if_neg hbail] at h
            try dsimp only at h
            have hlit := emitLiteral_le5 (List.take (best.s - nextEmit) (List.drop nextEmit src))
            have hlst : (List.take (best.s - nextEmit) (List.drop nextEmit src)).length ≤
                best.s - nextEmit := by simp [List.length_take]
            have hcopy := copyRepeatBound (best.s - best.offset) best.length src.length
              (by omega) (by omega) hn
            rw [if_neg (fun hc => hc.2.2 hrep)] at h
            try dsimp only at h
            rw [if_pos hrep] at h
            by_cases hne0 : nextEmit > 0
            · rw [if_pos hne0] at h
              by_cases hdone : best.s + best.length ≥ sLimit
              · rw [if_pos hdone] at h
                simp only [Option.some.injEq, BlockOut.done.injEq] at h
                rcases h with ⟨rfl, rfl⟩
                simp only [List.length_append]
                omega
              · rw [if_neg hdone] at h
                rcases hf : bestFill src lT sT (best.s + 1) (best.s + best.length)
                  with ⟨lT2, sT2⟩
                rw [hf] at h
                try dsimp only at h
                split_ifs at h with hbail2 hcv
                · simp at h
                · exact ihF _ _ _ _ _ _ _ _ _ _ (by omega) (Or.inl rfl) (by omega) h
                · exact ihF _ _ _ _ _ _ _ _ _ _ (by omega) (Or.inl rfl) (by omega) h
            · rw [if_neg hne0] at h
              by_cases hdone : best.s + best.length ≥ sLimit
              · rw [if_pos hdone] at h
                simp only [Option.some.injEq, BlockOut.done.injEq] at h
                rcases h with ⟨rfl, rfl⟩
                simp only [List.length_append]
                omega
              · rw [if_neg hdone] at h
                rcases hf : bestFill src lT sT (best.s + 1) (best.s + best.length)
                  with ⟨lT2, sT2⟩
                rw [hf] at h
                try dsimp only at h
                split_ifs at h with hbail2 hcv
                · simp at h
                · exact ihF _ _ _ _ _ _ _ _ _ _ (by omega) (Or.inl rfl) (by omega) h
                · exact ihF _ _ _ _ _ _ _ _ _ _ (by omega) (Or.inl rfl) (by omega) h
        · rw [if_neg hrep] at h
          rcases hbb : bestBack src nextEmit best.offset best.length best.s with ⟨o1, l1, s1⟩
          rw [hbb] at h
          try dsimp only at h
          have hspec := bestBackGo_spec src nextEmit (best.s + 1) best.offset best.length best.s
          rw [show bestBackGo src nextEmit (best.s + 1) best.offset best.length best.s =
            bestBack src nextEmit best.offset best.length best.s from rfl, hbb] at hspec
          dsimp only at hspec
          obtain ⟨hsum, hsle⟩ := hspec
          by_cases hbail : out.length + (s1 - nextEmit) > dstLimit
          · rw [if_pos hbail] at h
            simp at h
          · rw [if_neg hbail] at h
            try dsimp only at h
            have hlit := emitLiteral_le5 (List.take (s1 - nextEmit) (List.drop nextEmit src))
            have hlst : (List.take (s1 - nextEmit) (List.drop nextEmit src)).length ≤
                s1 - nextEmit := by simp [List.length_take]
            have hcopy := copyRepeatBound (s1 - o1) l1 src.length (by omega) (by omega) hn
            by_cases hskip : s1 - o1 > 65535 ∧ s1 + l1 - s1 ≤ 5 ∧ ¬best.rep = true
            · rw [if_pos hskip] at h
              try dsimp only at h
              by_cases hdone : best.s + 1 ≥ sLimit
              · rw [if_pos hdone] at h
                simp only [Option.some.injEq, BlockOut.done.injEq] at h
                rcases h with ⟨rfl, rfl⟩
                omega
              · rw [if_neg hdone] at h
                exact ihF _ _ _ _ _ _ _ _ _ _ hout (Or.inl rfl) (by omega) h
            · rw [if_neg hskip] at h
              try dsimp only at h
              rw [if_neg hrep] at h
              by_cases hdone : s1 + l1 ≥ sLimit
              · rw [if_pos hdone] at h
                simp only [Option.some.injEq, BlockOut.done.injEq] at h
                rcases h with ⟨rfl, rfl⟩
                simp only [List.length_append]
                omega
              · rw [if_neg hdone] at h
                rcases hf : bestFill src lT sT (best.s + 1) (s1 + l1) with ⟨lT2, sT2⟩
                rw [hf] at h
                try dsimp only at h
                split_ifs at h with hbail2 hcv
                · simp at h
                · exact ihF _ _ _ _ _ _ _ _ _ _ (by omega) (Or.inl rfl) (by omega) h
                · exact ihF _ _ _ _ _ _ _ _ _ _ (by omega) (Or.inl rfl) (by omega) h


theorem encodeBlockBest_bound (src : Bytes) (fuel : Nat) (n : Bytes)
    (h : encodeBlockBest src fuel = some n) :
    n = [] ∨ n.length ≤ src.length + (literalExtraSize src.length).toNat +
      (src.length / 32 + 1) := by
  rw [encodeBlockBest] at h
  rw [show MIN_NON_LITERAL_BLOCK_SIZE = 32 from rfl,
    show INPUT_MARGIN = 8 from rfl] at h
  split_ifs at h with h1 h2
  · exact .inl (by simpa using h.symm)
  · exact .inl (by simpa using h.symm)
  · try dsimp only at h
    split at h
    · exact absurd h (by simp)
    · exact .inl (by simpa using h.symm)
    · rename_i out ne hloop
      have hinv := (best_loop_bound src (src.length - 8) (src.length - 5)
        (by omega) (by omega) fuel).1
        _ _ _ _ _ _ _ _ out ne (by simp) (Or.inl rfl) (by omega) hloop
      split_ifs at h with hne hgate
      · exact .inl (by simpa using h.symm)
      · right
        simp only [Option.some.injEq] at h
        subst h
        rw [List.length_append]
        have hlit := emitLiteral_le5 (src.drop ne)
        rw [List.length_drop] at hlit
        omega
      · right
        simp only [Option.some.injEq] at h
        subst h
        omega

theorem encode_best_bound (x : Bytes) (fuel : Nat) (out : Bytes) (m : Nat)
    (hm : maxEncodedLen x.length = .ok m) (h : encodeBest x fuel = some out) :
    out.length ≤ m := by
  obtain ⟨hmeq, hle⟩ := maxEncodedLen_ok _ _ hm
  have hva := encodeVarint_len x.length (by omega)
  rw [encodeBest] at h
  rw [if_neg (by omega)] at h
  dsimp only at h
  split_ifs at h with h0 h32
  · simp only [Option.some.injEq] at h
    subst h
    have hles0 : (literalExtraSize (0 : Nat)).toNat = 0 := by simp [literalExtraSize]
    rw [h0] at hva hmeq ⊢
    omega
  · simp only [Option.some.injEq] at h
    subst h
    rw [List.length_append]
    have hlit := emitLiteral_le x (by omega)
    omega
  · split at h
    · exact absurd h (by simp)
    · rename_i nb hnb
      split_ifs at h with hpos
      · rcases encodeBlockBest_bound x fuel nb hnb with rfl | hlt
        · simp at hpos
        · simp only [Option.some.injEq] at h
          subst h
          rw [List.length_append]
          omega
      · simp only [Option.some.injEq] at h
        subst h
        rw [List.length_append]
        have hlit := emitLiteral_le x (by omega)
        omega

/-- C3: for every input `x` accepted by `max_encoded_len` (the claim's size
bound function), the output of each of the four encoders -- Fast (`encode`),
Better, Best and Snappy -- is at most `max_encoded_len x.length` bytes long. -/
theorem C3_max_encoded_len (x : Bytes) (fuel : Nat) (out : Bytes) (m : Nat)
    (hm : maxEncodedLen x.length = .ok m) :
    (encode x fuel = some out → out.length ≤ m) ∧
    (encodeBetter x fuel = some out → out.length ≤ m) ∧
    (encodeBest x fuel = some out → out.length ≤ m) ∧
    (encodeSnappy x fuel = some out → out.length ≤ m) :=
  ⟨encode_fast_bound x fuel out m hm, encode_better_bound x fuel out m hm,
   encode_best_bound x fuel out m hm, encode_snappy_bound x fuel out m hm⟩

theorem C3_max_encoded_len_witness :
    (encode [] 1 = some [0] → ([0] : Bytes).length ≤ 2) ∧
    (encodeBetter [] 1 = some [0] → ([0] : Bytes).length ≤ 2) ∧
    (encodeBest [] 1 = some [0] → ([0] : Bytes).length ≤ 2) ∧
    (encodeSnappy [] 1 = some [0] → ([0] : Bytes).length ≤ 2) :=
  C3_max_encoded_len [] 1 [0] 2 (by decide)

theorem copyFromSlice_some (dst : Bytes) (d : Nat) (seg : Bytes)
    (h : d + seg.length ≤ dst.length) :
    ∃ r, copyFromSlice dst d seg = some r ∧ r.length = dst.length := by
  refine ⟨_, by rw [copyFromSlice, if_pos h], ?_⟩
  simp only [List.length_append, List.length_take, List.length_drop]
  omega

theorem copyWithinLoop_some : ∀ (n : Nat) (dst : Bytes) (d s : Nat),
    s < d → d + n ≤ dst.length →
    ∃ r, copyWithinLoop dst d s n = some r ∧ r.length = dst.length := by
  intro n
  induction n with
  | zero => intro dst d s _ _; exact ⟨dst, rfl, rfl⟩
  | succ k ih =>
    intro dst d s hsd hlen
    have hslt : s < dst.length := by omega
    have hdlt : d < dst.length := by omega
    rw [copyWithinLoop]
    rw [List.get?_eq_get hslt]
    dsimp only
    rw [if_pos hdlt]
    obtain ⟨r, hr, hrlen⟩ := ih (dst.set d (dst.get ⟨s, hslt⟩)) (d + 1) (s + 1)
      (by omega) (by simp; omega)
    exact ⟨r, hr, by rw [hrlen]; simp⟩

theorem copyWithin_some (dst : Bytes) (d offset length : Nat)
    (h1 : 1 ≤ offset) (h2 : offset ≤ d) (h3 : d + length ≤ dst.length) :
    ∃ r, copyWithin dst d offset length = some r ∧ r.length = dst.length := by
  rw [copyWithin]
  by_cases hc : offset ≥ length
  · rw [if_pos hc]
    have hseg : d + ((dst.drop (d - offset)).take length).length ≤ dst.length := by
      simp only [List.length_take, List.length_drop]
      omega
    rw [if_pos (by constructor <;> omega)]
    exact copyFromSlice_some dst d _ hseg
  · rw [if_neg hc]
    exact copyWithinLoop_some length dst d (d - offset) (by omega) h3

theorem decodeLiteralLength_ne_none (l : Bytes) (h : l ≠ []) :
    decodeLiteralLength l ≠ none := by
  match l with
  | [] => exact absurd rfl h
  | b :: t =>
    rcases t with _ | ⟨b1, _ | ⟨b2, _ | ⟨b3, _ | ⟨b4, rest⟩⟩⟩⟩ <;>
      · rw [decodeLiteralLength]
        split_ifs <;> simp
        all_goals simp


theorem s2DecodeSlow_spec (src : Bytes) : ∀ (fuel : Nat) (dst : Bytes) (s d offset : Nat),
    src.length - s + 2 ≤ fuel → d ≤ dst.length →
    s2DecodeSlow src dst s d offset fuel ≠ none ∧
    ∀ z, s2DecodeSlow src dst s d offset fuel = some (.ok z) →
      z.length = dst.length := by
  intro fuel
  induction fuel with
  | zero => intro dst s d offset hf hd; omega
  | succ f ih =>
    intro dst s d offset hf hd
    rw [s2DecodeSlow]
    split
    case isFalse hs =>
      split
      · exact ⟨by simp, fun z hz => by simp at hz⟩
      · rename_i hdeq
        push_neg at hdeq
        exact ⟨by simp, fun z hz => by
          simp only [Option.some.injEq, Except.ok.injEq] at hz
          rw [← hz, ← hdeq]⟩
    case isTrue hs =>
      set tg := src.get ⟨s, hs⟩ &&& 3 with htg
      have htlt : tg < 4 := by
        rw [htg]
        have := Nat.and_le_right (n := src.get ⟨s, hs⟩) (m := 3)
        omega
      interval_cases tg
      case «0» =>
        simp only [beq_iff_eq, if_true]
        split
        case h_1 heq =>
          refine absurd heq (decodeLiteralLength_ne_none _ ?_)
          intro hnil
          rw [List.drop_eq_nil_iff_le] at hnil
          omega
        case h_2 e heq => exact ⟨by simp, fun z hz => by simp at hz⟩
        case h_3 length consumed heq =>
          split
          · exact ⟨by simp, fun z hz => by simp at hz⟩
          · rename_i hguard
            push_neg at hguard
            obtain ⟨hg1, hg2, hg3⟩ := hguard
            have hcons := decodeLiteralLength_consumed heq
            have hseg : d + ((src.drop (s + consumed)).take length).length ≤
                dst.length := by
              simp only [List.length_take, List.length_drop]
              omega
            obtain ⟨r, hr, hrlen⟩ := copyFromSlice_some dst d _ hseg
            rw [hr]
            have hrec := ih r (s + consumed + length) (d + length) offset
              (by omega) (by rw [hrlen]; omega)
            exact ⟨hrec.1, fun z hz => by rw [hrec.2 z hz, hrlen]⟩
      case «1» =>
        simp only [beq_iff_eq, if_true]
        rw [if_neg (by omega)]
        split
        case h_1 e heq => exact ⟨by simp, fun z hz => by simp at hz⟩
        case h_2 newOffset length consumed heq =>
          split
          · exact ⟨by simp, fun z hz => by simp at hz⟩
          · rename_i hg1
            split
            · exact ⟨by simp, fun z hz => by simp at hz⟩
            · rename_i hg2
              push_neg at hg1 hg2
              obtain ⟨hno, hdo, hlen2⟩ := hg2
              have hc := decodeCopy1_consumed heq
              obtain ⟨r, hr, hrlen⟩ := copyWithin_some dst d newOffset length
                (by omega) (by omega) (by omega)
              rw [hr]
              have hrec := ih r (s + consumed) (d + length) newOffset
                (by omega) (by rw [hrlen]; omega)
              exact ⟨hrec.1, fun z hz => by rw [hrec.2 z hz, hrlen]⟩
      case «2» =>
        simp only [beq_iff_eq, if_true]
        rw [if_neg (by omega), if_neg (by omega)]
        split
        · exact ⟨by simp, fun z hz => by simp at hz⟩
        · rename_i hs3
          push_neg at hs3
          have hi1 : s + 1 < src.length := by omega
          have hi2 : s + 2 < src.length := by omega
          rw [show s + 3 - 2 = s + 1 from rfl, show s + 3 - 1 = s + 2 from rfl,
            show s + 3 - 3 = s from rfl,
            List.get?_eq_get hi1, List.get?_eq_get hi2, List.get?_eq_get hs]
          dsimp only
          split
          · exact ⟨by simp, fun z hz => by simp at hz⟩
          · rename_i hg
            push_neg at hg
            obtain ⟨hno, hdo, hlen2⟩ := hg
            obtain ⟨r, hr, hrlen⟩ := copyWithin_some dst d
              (src.get ⟨s + 1, hi1⟩ + 256 * src.get ⟨s + 2, hi2⟩)
              (1 + src.get ⟨s, hs⟩ >>> 2) (by omega) (by omega) (by omega)
            rw [hr]
            have hrec := ih r (s + 3) (d + (1 + src.get ⟨s, hs⟩ >>> 2))
              (src.get ⟨s + 1, hi1⟩ + 256 * src.get ⟨s + 2, hi2⟩)
              (by omega) (by rw [hrlen]; omega)
            exact ⟨hrec.1, fun z hz => by rw [hrec.2 z hz, hrlen]⟩
      case «3» =>
        simp only [beq_iff_eq]
        rw [if_neg (by omega), if_neg (by omega), if_neg (by omega)]
        split
        · exact ⟨by simp, fun z hz => by simp at hz⟩
        · rename_i hs5
          push_neg at hs5
          have hi1 : s + 1 < src.length := by omega
          have hi2 : s + 2 < src.length := by omega
          have hi3 : s + 3 < src.length := by omega
          have hi4 : s + 4 < src.length := by omega
          rw [show s + 5 - 4 = s + 1 from rfl, show s + 5 - 3 = s + 2 from rfl,
            show s + 5 - 2 = s + 3 from rfl, show s + 5 - 1 = s + 4 from rfl,
            show s + 5 - 5 = s from rfl,
            List.get?_eq_get hi1, List.get?_eq_get hi2,
            List.get?_eq_get hi3, List.get?_eq_get hi4, List.get?_eq_get hs]
          dsimp only
          split
          · exact ⟨by simp, fun z hz => by simp at hz⟩
          · rename_i hg
            push_neg at hg
            obtain ⟨hno, hdo, hlen2⟩ := hg
            obtain ⟨r, hr, hrlen⟩ := copyWithin_some dst d
              (src.get ⟨s + 1, hi1⟩ + 256 * src.get ⟨s + 2, hi2⟩ +
                65536 * src.get ⟨s + 3, hi3⟩ + 16777216 * src.get ⟨s + 4, hi4⟩)
              (1 + src.get ⟨s, hs⟩ >>> 2) (by omega) (by omega) (by omega)
            rw [hr]
            have hrec := ih r (s + 5) (d + (1 + src.get ⟨s, hs⟩ >>> 2))
              (src.get ⟨s + 1, hi1⟩ + 256 * src.get ⟨s + 2, hi2⟩ +
                65536 * src.get ⟨s + 3, hi3⟩ + 16777216 * src.get ⟨s + 4, hi4⟩)
              (by omega) (by rw [hrlen]; omega)
            exact ⟨hrec.1, fun z hz => by rw [hrec.2 z hz, hrlen]⟩


theorem s2DecodeFast_spec (src : Bytes) : ∀ (fuel : Nat) (dst : Bytes) (s d offset : Nat),
    src.length - s + 2 ≤ fuel → d ≤ dst.length →
    s2DecodeFast src dst s d offset fuel ≠ none ∧
    ∀ z, s2DecodeFast src dst s d offset fuel = some (.ok z) →
      z.length = dst.length := by
  intro fuel
  induction fuel with
  | zero => intro dst s d offset hf hd; omega
  | succ f ih =>
    intro dst s d offset hf hd
    rw [s2DecodeFast]
    split
    case isFalse hs =>
      exact s2DecodeSlow_spec src (f + 1) dst s d offset hf hd
    case isTrue hs =>
      have hs2 : s < src.length := by omega
      have htle : src.get ⟨s, hs2⟩ &&& 3 ≤ 3 :=
        Nat.and_le_right (n := src.get ⟨s, hs2⟩) (m := 3)
      rcases ht4 : src.get ⟨s, hs2⟩ &&& 3 with _ | _ | _ | _ | n
      rotate_right
      · omega
      case zero =>
        simp only [ht4, beq_iff_eq, if_true]
        split
        case h_1 heq =>
          refine absurd heq (decodeLiteralLength_ne_none _ ?_)
          intro hnil
          rw [List.drop_eq_nil_iff_le] at hnil
          omega
        case h_2 e heq => exact ⟨by simp, fun z hz => by simp at hz⟩
        case h_3 length consumed heq =>
          split
          · exact ⟨by simp, fun z hz => by simp at hz⟩
          · rename_i hguard
            push_neg at hguard
            obtain ⟨hg2, hg3⟩ := hguard
            have hcons := decodeLiteralLength_consumed heq
            have hseg : d + ((src.drop (s + consumed)).take length).length ≤
                dst.length := by
              simp only [List.length_take, List.length_drop]
              omega
            obtain ⟨r, hr, hrlen⟩ := copyFromSlice_some dst d _ hseg
            rw [hr]
            have hrec := ih r (s + consumed + length) (d + length) offset
              (by omega) (by rw [hrlen]; omega)
            exact ⟨hrec.1, fun z hz => by rw [hrec.2 z hz, hrlen]⟩
      case succ.zero =>
        simp only [ht4, beq_iff_eq, if_true]
        rw [if_neg (by omega)]
        split
        case h_1 e heq => exact ⟨by simp, fun z hz => by simp at hz⟩
        case h_2 newOffset length consumed heq =>
          split
          · exact ⟨by simp, fun z hz => by simp at hz⟩
          · rename_i hg2
            push_neg at hg2
            obtain ⟨hno, hdo, hlen2⟩ := hg2
            have hc := decodeCopy1_consumed heq
            obtain ⟨r, hr, hrlen⟩ := copyWithin_some dst d newOffset length
              (by omega) (by omega) (by omega)
            rw [hr]
            have hrec := ih r (s + consumed) (d + length) newOffset
              (by omega) (by rw [hrlen]; omega)
            exact ⟨hrec.1, fun z hz => by rw [hrec.2 z hz, hrlen]⟩
      case succ.succ.zero =>
        simp only [ht4, beq_iff_eq, if_true]
        rw [if_neg (by omega), if_neg (by omega)]
        split
        · exact ⟨by simp, fun z hz => by simp at hz⟩
        · rename_i hs3
          push_neg at hs3
          have hi1 : s + 1 < src.length := by omega
          have hi2 : s + 2 < src.length := by omega
          rw [List.get?_eq_get hi1, List.get?_eq_get hi2]
          dsimp only
          split
          · exact ⟨by simp, fun z hz => by simp at hz⟩
          · rename_i hg
            push_neg at hg
            obtain ⟨hno, hdo, hlen2⟩ := hg
            obtain ⟨r, hr, hrlen⟩ := copyWithin_some dst d
              (src.get ⟨s + 1, hi1⟩ + 256 * src.get ⟨s + 2, hi2⟩)
              (1 + src.get ⟨s, hs2⟩ >>> 2) (by omega) (by omega) (by omega)
            rw [hr]
            have hrec := ih r (s + 3) (d + (1 + src.get ⟨s, hs2⟩ >>> 2))
              (src.get ⟨s + 1, hi1⟩ + 256 * src.get ⟨s + 2, hi2⟩)
              (by omega) (by rw [hrlen]; omega)
            exact ⟨hrec.1, fun z hz => by rw [hrec.2 z hz, hrlen]⟩
      case succ.succ.succ.zero =>
        simp only [ht4, beq_iff_eq]
        rw [if_neg (by omega), if_neg (by omega), if_neg (by omega)]
        split
        · exact ⟨by simp, fun z hz => by simp at hz⟩
        · rename_i hs5
          push_neg at hs5
          have hi1 : s + 1 < src.length := by omega
          have hi2 : s + 2 < src.length := by omega
          have hi3 : s + 3 < src.length := by omega
          have hi4 : s + 4 < src.length := by omega
          rw [List.get?_eq_get hi1, List.get?_eq_get hi2,
            List.get?_eq_get hi3, List.get?_eq_get hi4]
          dsimp only
          split
          · exact ⟨by simp, fun z hz => by simp at hz⟩
          · rename_i hg
            push_neg at hg
            obtain ⟨hno, hdo, hlen2⟩ := hg
            obtain ⟨r, hr, hrlen⟩ := copyWithin_some dst d
              (src.get ⟨s + 1, hi1⟩ + 256 * src.get ⟨s + 2, hi2⟩ +
                65536 * src.get ⟨s + 3, hi3⟩ + 16777216 * src.get ⟨s + 4, hi4⟩)
              (1 + src.get ⟨s, hs2⟩ >>> 2) (by omega) (by omega) (by omega)
            rw [hr]
            have hrec := ih r (s + 5) (d + (1 + src.get ⟨s, hs2⟩ >>> 2))
              (src.get ⟨s + 1, hi1⟩ + 256 * src.get ⟨s + 2, hi2⟩ +
                65536 * src.get ⟨s + 3, hi3⟩ + 16777216 * src.get ⟨s + 4, hi4⟩)
              (by omega) (by rw [hrlen]; omega)
            exact ⟨hrec.1, fun z hz => by rw [hrec.2 z hz, hrlen]⟩


/-- Claim C2: for every byte sequence `y`, `decode y` never panics (the
embedding returns `none` exactly on the panics of the Rust code: an
out-of-bounds slice read or write), and when it succeeds with `Ok z`, the
length of `z` equals the value of the leading varint of `y`. -/
theorem C2_decode_total (y : Bytes) :
    decode y ≠ none ∧
    ∀ z, decode y = some (.ok z) → ∃ n, decodeVarint y = .ok (z.length, n) := by
  rcases hdl : decodeLen y with e | ⟨dlen, hlen⟩
  · rw [decode, hdl]
    exact ⟨by simp, fun z hz => by simp at hz⟩
  · rw [decode, hdl]
    dsimp only
    rw [s2Decode]
    have hspec := s2DecodeFast_spec (y.drop hlen) ((y.drop hlen).length + 2)
      (List.replicate dlen 0) 0 0 0 (by omega) (by simp)
    refine ⟨hspec.1, fun z hz => ?_⟩
    have hzlen := hspec.2 z hz
    rw [List.length_replicate] at hzlen
    rw [decodeLen] at hdl
    rcases hdv : decodeVarint y with e | ⟨v, n⟩
    · rw [hdv] at hdl
      simp at hdl
    · rw [hdv] at hdl
      dsimp only at hdl
      split_ifs at hdl
      simp only [Except.ok.injEq, Prod.mk.injEq] at hdl
      exact ⟨n, by rw [hzlen, hdl.1]⟩

/-- `C2_decode_total` applied to the block `[2, 4, 65, 66]` (varint `2`,
then a two-byte literal). -/
theorem C2_decode_total_witness :
    decode [2, 4, 65, 66] ≠ none ∧ ∃ n, decodeVarint [2, 4, 65, 66] = .ok (2, n) := by
  have h := C2_decode_total [2, 4, 65, 66]
  refine ⟨h.1, ?_⟩
  have h2 := h.2 [65, 66] (by decide)
  simpa using h2


theorem add_preserves_sorted (idx : Index) (c u : Int) (idx' : Index)
    (hs : InfoSorted idx.info) (h : idx.add c u = .ok idx') : InfoSorted idx'.info := by
  unfold Index.add at h
  match hlast : idx.info.getLast? with
  | none =>
    rw [hlast] at h
    have hnil : idx.info = [] := List.getLast?_eq_none_iff.mp hlast
    simp only [Except.ok.injEq] at h
    subst h
    simp [InfoSorted, hnil]
  | some last =>
    rw [hlast] at h
    dsimp only at h
    have hsplit : idx.info.dropLast ++ [last] = idx.info :=
      List.dropLast_append_getLast? last hlast
    rw [InfoSorted, ← hsplit, List.pairwise_append] at hs
    obtain ⟨hs1, -, hs3⟩ := hs
    split_ifs at h with h1 h2 h3 h4
    · -- update last in place
      simp only [Except.ok.injEq] at h
      subst h
      simp only [InfoSorted, List.pairwise_append]
      exact ⟨hs1, List.pairwise_singleton _ _, fun x hx y hy => by
        simp only [List.mem_singleton] at hy
        subst hy
        exact hs3 x hx last (List.mem_singleton.mpr rfl)⟩
    · -- skip (too close)
      simp only [Except.ok.injEq] at h
      subst h
      rw [← hsplit]
      exact List.pairwise_append.mpr ⟨hs1, List.pairwise_singleton _ _, hs3⟩
    · -- append new entry
      simp only [Except.ok.injEq] at h
      subst h
      simp only [InfoSorted]
      rw [← hsplit, List.append_assoc]
      refine List.pairwise_append.mpr ⟨hs1, ?_, ?_⟩
      · refine List.pairwise_append.mpr ⟨List.pairwise_singleton _ _,
          List.pairwise_singleton _ _, ?_⟩
        intro x hx y hy
        simp only [List.mem_singleton] at hx hy
        subst hx; subst hy
        simp only
        omega
      · intro x hx y hy
        have hxl := hs3 x hx last (List.mem_singleton.mpr rfl)
        simp only [List.mem_append, List.mem_singleton] at hy
        rcases hy with hy | hy <;> subst hy
        · exact hxl
        · simp only; omega


theorem findLinear_spec (info : List IndexEntry) (off : Int) (e0 : IndexEntry)
    (hs : InfoSorted info) (h0 : e0.uncompressedOffset ≤ off) :
    ∃ e : IndexEntry,
      findLinear info off e0.compressedOffset e0.uncompressedOffset =
        .ok (e.compressedOffset, e.uncompressedOffset) ∧
      e.uncompressedOffset ≤ off ∧
      (e = e0 ∨ e ∈ info) ∧
      ((∃ x ∈ info, x.uncompressedOffset ≤ off) → e ∈ info) ∧
      (∀ x ∈ info, x.uncompressedOffset ≤ off → x.uncompressedOffset ≤ e.uncompressedOffset) := by
  induction info generalizing e0 with
  | nil =>
    exact ⟨e0, rfl, h0, .inl rfl, by simp, by simp⟩
  | cons e1 rest ih =>
    rw [InfoSorted, List.pairwise_cons] at hs
    obtain ⟨h1, hrest⟩ := hs
    by_cases hgt : e1.uncompressedOffset > off
    · refine ⟨e0, ?_, h0, .inl rfl, ?_, ?_⟩
      · simp [findLinear, hgt]
      · rintro ⟨x, hx, hxle⟩
        rcases List.mem_cons.mp hx with rfl | hx
        · omega
        · have := h1 x hx; omega
      · intro x hx hxle
        rcases List.mem_cons.mp hx with rfl | hx
        · omega
        · have := h1 x hx; omega
    · push_neg at hgt
      obtain ⟨e, heq, hle, hor, -, hmax⟩ := ih e1 hrest hgt
      have hmem : e ∈ e1 :: rest := by
        rcases hor with rfl | he
        · exact List.mem_cons_self _ _
        · exact List.mem_cons_of_mem _ he
      refine ⟨e, ?_, hle, .inr hmem, fun _ => hmem, ?_⟩
      · rw [findLinear, if_neg (by omega)]
        exact heq
      · intro x hx hxle
        rcases List.mem_cons.mp hx with rfl | hx
        · rcases hor with rfl | he
          · omega
          · have := h1 e he; omega
        · exact hmax x hx hxle


theorem sorted_key_lt (info : List IndexEntry) (hs : InfoSorted info) (j k : Nat)
    (hjk : j < k) (hk : k < info.length) :
    (info.getD j ⟨0, 0⟩).uncompressedOffset < (info.getD k ⟨0, 0⟩).uncompressedOffset := by
  have hj : j < info.length := Nat.lt_trans hjk hk
  rw [List.getD_eq_get info _ hj, List.getD_eq_get info _ hk]
  rw [InfoSorted, List.pairwise_iff_get] at hs
  exact hs ⟨j, hj⟩ ⟨k, hk⟩ hjk

theorem sorted_key_le (info : List IndexEntry) (hs : InfoSorted info) (j k : Nat)
    (hjk : j ≤ k) (hk : k < info.length) :
    (info.getD j ⟨0, 0⟩).uncompressedOffset ≤ (info.getD k ⟨0, 0⟩).uncompressedOffset := by
  rcases Nat.lt_or_ge j k with h | h
  · exact le_of_lt (sorted_key_lt info hs j k h hk)
  · have : j = k := Nat.le_antisymm hjk h
    subst this
    exact le_refl _

theorem binSearchLoop_spec (info : List IndexEntry) (off : Int) (hs : InfoSorted info) :
    ∀ fuel left right, left ≤ right → right ≤ info.length → right - left < fuel →
    (∀ j, j < left → (info.getD j ⟨0, 0⟩).uncompressedOffset < off) →
    (∀ j, right ≤ j → j < info.length → off < (info.getD j ⟨0, 0⟩).uncompressedOffset) →
    (match binSearchLoop info off fuel left right with
     | .ok i => i < info.length ∧ (info.getD i ⟨0, 0⟩).uncompressedOffset = off
     | .error i => i ≤ info.length ∧
         (∀ j, j < i → (info.getD j ⟨0, 0⟩).uncompressedOffset < off) ∧
         (∀ j, i ≤ j → j < info.length → off < (info.getD j ⟨0, 0⟩).uncompressedOffset)) := by
  intro fuel
  induction fuel with
  | zero => intro left right _ _ hf _ _; omega
  | succ k ih =>
    intro left right hlr hrlen hf hlo hhi
    rw [binSearchLoop]
    by_cases hcmp : left < right
    · rw [if_pos hcmp]
      set mid := left + (right - left) / 2 with hmid
      have hmlt : mid < right := by omega
      have hmlen : mid < info.length := by omega
      by_cases h1 : (info.getD mid ⟨0, 0⟩).uncompressedOffset < off
      · rw [if_pos h1]
        refine ih (mid + 1) right (by omega) hrlen (by omega) ?_ hhi
        intro j hj
        rcases Nat.lt_or_ge j mid with hjm | hjm
        · exact lt_of_lt_of_le (sorted_key_lt info hs j mid hjm hmlen) (le_of_lt h1)
        · have : j = mid := by omega
          subst this; exact h1
      · rw [if_neg (by omega)]
        by_cases h2 : (info.getD mid ⟨0, 0⟩).uncompressedOffset > off
        · rw [if_pos h2]
          refine ih left mid (by omega) (by omega) (by omega) hlo ?_
          intro j hjm hjlen
          exact lt_of_lt_of_le h2 (sorted_key_le info hs mid j hjm hjlen)
        · rw [if_neg h2]
          exact ⟨hmlen, by omega⟩
    · rw [if_neg hcmp]
      exact ⟨by omega, fun j hj => hlo j (by omega), fun j hj hjlen => hhi j (by omega) hjlen⟩


theorem find_spec (idx : Index) (u off : Int)
    (htu : 0 ≤ idx.totalUncompressed) (hs : InfoSorted idx.info)
    (hoff : off = if u < 0 then idx.totalUncompressed + u else u)
    (h0 : 0 ≤ off) (hle : off ≤ idx.totalUncompressed)
    (hex : ∃ x ∈ idx.info, x.uncompressedOffset ≤ off) :
    ∃ e ∈ idx.info,
      idx.find u = .ok (e.compressedOffset, e.uncompressedOffset) ∧
      e.uncompressedOffset ≤ off ∧
      ∀ x ∈ idx.info, x.uncompressedOffset ≤ off →
        x.uncompressedOffset ≤ e.uncompressedOffset := by
  have hlen0 : 0 < idx.info.length := by
    obtain ⟨x, hx, -⟩ := hex
    exact List.length_pos.mpr (List.ne_nil_of_mem hx)
  rw [Index.find]
  rw [if_neg (by omega)]
  simp only [← hoff]
  rw [if_neg (by omega), if_neg (by omega)]
  by_cases hbig : idx.info.length > 200
  · rw [if_pos hbig]
    have hspec := binSearchLoop_spec idx.info off hs (idx.info.length + 1) 0
      idx.info.length (by omega) (by omega) (by omega) (by omega)
      (by intro j hj hjlen; omega)
    rw [binSearchGo]
    rcases hbin : binSearchLoop idx.info off (idx.info.length + 1) 0 idx.info.length with i | i
    · -- insertion point i
      rw [hbin] at hspec
      dsimp only at hspec ⊢
      obtain ⟨hilen, hbelow, habove⟩ := hspec
      have hi0 : i ≠ 0 := by
        intro h0'
        obtain ⟨x, hx, hxle⟩ := hex
        obtain ⟨n, hn⟩ := List.mem_iff_get.mp hx
        have := habove n (by omega) n.isLt
        rw [List.getD_eq_get _ _ n.isLt] at this
        simp only [Fin.eta] at this
        rw [hn] at this
        omega
      have him : i - 1 < idx.info.length := by omega
      refine ⟨idx.info.getD (i - 1) ⟨0, 0⟩, ?_, ?_, ?_, ?_⟩
      · rw [List.getD_eq_get _ _ him]
        exact List.get_mem _ _ _
      · simp only [if_neg hi0]
      · have := hbelow (i - 1) (by omega)
        omega
      · intro x hx hxle
        obtain ⟨n, hn⟩ := List.mem_iff_get.mp hx
        have hnlt : (n : Nat) < i := by
          by_contra hcon
          push_neg at hcon
          have := habove n hcon n.isLt
          rw [List.getD_eq_get _ _ n.isLt] at this
          simp only [Fin.eta] at this
          rw [hn] at this
          omega
        have hmono := sorted_key_le idx.info hs n (i - 1) (by omega) him
        rw [List.getD_eq_get _ _ n.isLt] at hmono
        simp only [Fin.eta] at hmono
        rw [hn] at hmono
        exact hmono
    · -- exact hit i
      rw [hbin] at hspec
      dsimp only at hspec ⊢
      obtain ⟨hilen, hkey⟩ := hspec
      refine ⟨idx.info.getD i ⟨0, 0⟩, ?_, rfl, by omega, ?_⟩
      · rw [List.getD_eq_get _ _ hilen]
        exact List.get_mem _ _ _
      · intro x hx hxle
        omega
  · rw [if_neg hbig]
    obtain ⟨e, heq, hle', hor, himp, hmax⟩ :=
      findLinear_spec idx.info off ⟨0, 0⟩ hs h0
    exact ⟨e, himp hex, heq, hle', hmax⟩


/-- Claim C9 as amended: the `info` list of an index built through
`Index::add` always has strictly increasing uncompressed offsets (starting
from `Index::new`), and on any index with such a sorted `info`, valid
totals and a target `off` (the offset after the translation of negative
arguments) that some stored entry lies at or below, `Index::find` returns
the stored entry with the largest uncompressed offset `≤ off` - on both the
linear and the binary-search paths. -/
theorem C9_amended :
    (Index.new.info = [] ∧
      ∀ (idx : Index) (c u : Int) (idx' : Index),
        InfoSorted idx.info → idx.add c u = .ok idx' → InfoSorted idx'.info) ∧
    (∀ (idx : Index) (u off : Int),
      0 ≤ idx.totalUncompressed →
      InfoSorted idx.info →
      off = (if u < 0 then idx.totalUncompressed + u else u) →
      0 ≤ off → off ≤ idx.totalUncompressed →
      (∃ x ∈ idx.info, x.uncompressedOffset ≤ off) →
      ∃ e ∈ idx.info,
        idx.find u = .ok (e.compressedOffset, e.uncompressedOffset) ∧
        e.uncompressedOffset ≤ off ∧
        ∀ x ∈ idx.info, x.uncompressedOffset ≤ off →
          x.uncompressedOffset ≤ e.uncompressedOffset) :=
  ⟨⟨rfl, add_preserves_sorted⟩, find_spec⟩

/-- `C9_amended` applied to a one-entry index (entry `(7, 5)`, total `10`)
and target `6`. -/
theorem C9_amended_witness :
    Index.find ⟨10, -1, [⟨7, 5⟩], 0⟩ 6 = .ok (7, 5) := by
  obtain ⟨e, hmem, heq, -, -⟩ :=
    C9_amended.2 ⟨10, -1, [⟨7, 5⟩], 0⟩ 6 6 (by decide)
      (by exact List.pairwise_singleton _ _) (by decide) (by decide) (by decide)
      ⟨⟨7, 5⟩, by decide, by decide⟩
  rw [List.mem_singleton] at hmem
  subst hmem
  exact heq

/-- Claim C4: a Copy1 tag whose encoded offset is zero is a repeat: length
field `0..4` gives `field + 4`, field `5` one extra byte `b2` and length
`b2 + 8`, field `6` two extra little-endian bytes and length `v + 260`,
field `7` three extra bytes and length `v + 65540`; the offset stays at
`last_offset` in every case. -/
theorem C4_copy1_repeat (b0 b1 b2 b3 b4 : Nat) (rest : Bytes) (last : Nat)
    (h0 : ((b0 &&& 0xe0) <<< 3) ||| b1 = 0) :
    ((b0 >>> 2) &&& 0x7 ≤ 4 →
      decodeCopy1 (b0 :: b1 :: b2 :: b3 :: b4 :: rest) last =
        .ok (last, ((b0 >>> 2) &&& 0x7) + 4, 2)) ∧
    ((b0 >>> 2) &&& 0x7 = 5 →
      decodeCopy1 (b0 :: b1 :: b2 :: b3 :: b4 :: rest) last = .ok (last, b2 + 8, 3)) ∧
    ((b0 >>> 2) &&& 0x7 = 6 →
      decodeCopy1 (b0 :: b1 :: b2 :: b3 :: b4 :: rest) last =
        .ok (last, b2 + 256 * b3 + 260, 4)) ∧
    ((b0 >>> 2) &&& 0x7 = 7 →
      decodeCopy1 (b0 :: b1 :: b2 :: b3 :: b4 :: rest) last =
        .ok (last, b2 + 256 * b3 + 65536 * b4 + 65540, 5)) := by
  refine ⟨fun h => ?_, fun h => ?_, fun h => ?_, fun h => ?_⟩
  · have h5 : ((b0 >>> 2) &&& 0x7 == 5) = false := by simp; omega
    have h6 : ((b0 >>> 2) &&& 0x7 == 6) = false := by simp; omega
    have h7 : ((b0 >>> 2) &&& 0x7 == 7) = false := by simp; omega
    simp [decodeCopy1, h0, h5, h6, h7]
  · simp [decodeCopy1, h0, h]
  · simp [decodeCopy1, h0, h]
  · simp [decodeCopy1, h0, h]
  
/-- `C4_copy1_repeat` applied to the repeat tag `[21, 0]` (field 5) with
extra byte `10` and `last_offset = 7`. -/
theorem C4_copy1_repeat_witness :
    decodeCopy1 [21, 0, 10, 0, 0] 7 = .ok (7, 18, 3) := by
  have h := C4_copy1_repeat 21 0 10 0 0 [] 7 (by decide)
  have h5 := h.2.1 (by decide)
  simpa using h5

theorem wrapI32_emod (v : Int) : wrapI32 v % 2 ^ 32 = v % 2 ^ 32 := by
  rw [wrapI32]
  omega

theorem usizeAsI32_emod (n : Nat) : usizeAsI32 n % 2 ^ 32 = (n : Int) % 2 ^ 32 := by
  rw [usizeAsI32]
  split_ifs <;> omega

theorem wrapI32_congr (a b : Int) (h : a % 2 ^ 32 = b % 2 ^ 32) : wrapI32 a = wrapI32 b := by
  rw [wrapI32, wrapI32]
  omega

theorem scoreMatch_wrap (m : Match) (ne : Nat) :
    scoreMatch m ne = wrapI32 ((m.length : Int) - (m.s : Int) +
      (if ne = m.s then 1 else 0) -
      (if m.rep then (emitRepeatSize (m.s - m.offset) m.length : Int)
       else (emitCopySize (m.s - m.offset) m.length : Int))) := by
  rw [scoreMatch]
  have h1 := usizeAsI32_emod m.length
  have h2 := usizeAsI32_emod m.s
  have h3 := usizeAsI32_emod (emitRepeatSize (m.s - m.offset) m.length)
  have h4 := usizeAsI32_emod (emitCopySize (m.s - m.offset) m.length)
  have ha := wrapI32_emod (usizeAsI32 m.length - usizeAsI32 m.s)
  have hb := wrapI32_emod (wrapI32 (usizeAsI32 m.length - usizeAsI32 m.s) + 1)
  try dsimp only
  split_ifs with hne hrep
  · exact wrapI32_congr _ _ (by omega)
  · exact wrapI32_congr _ _ (by omega)
  · exact wrapI32_congr _ _ (by omega)
  · exact wrapI32_congr _ _ (by omega)

/-- Claim C5 as amended: every candidate the `match_at` closure of the Best
encoder keeps (a non-empty result) carries, as its score, the wrapping-`i32`
value of `length - s + (1 if s == next_emit else 0) - emit_cost` - the code
uses `length - s`, not the claimed `length - (s - next_emit)`, and computes
in `i32` - and that score is strictly greater than the wrapped `-(s as i32)`
(candidates scoring `≤ -(s as i32)` are rejected). -/
theorem C5_amended (src : Bytes) (offset s first : Nat) (rep : Bool) (best : Match)
    (ne : Nat) (m : Match) (hm : matchAt src offset s first rep best ne = m)
    (h : m ≠ Match.empty) :
    m.score = wrapI32 ((m.length : Int) - (m.s : Int) + (if ne = m.s then 1 else 0) -
        (if m.rep then (emitRepeatSize (m.s - m.offset) m.length : Int)
         else (emitCopySize (m.s - m.offset) m.length : Int))) ∧
    wrapI32 (-usizeAsI32 m.s) < m.score := by
  unfold matchAt at hm
  split at hm
  · exact absurd hm.symm h
  · split at hm
    · exact absurd hm.symm h
    · simp only at hm
      split at hm
      · exact absurd hm.symm h
      · rename_i hsc
        push_neg at hsc
        subst hm
        exact ⟨scoreMatch_wrap _ _, by simpa using hsc⟩

/-- `C5_amended` applied to the match of `[1,2,3,4,1,2,3,4]` at `s = 4`
against offset `0` (`next_emit = 4`). -/
theorem C5_amended_witness :
    (⟨0, 4, 4, -1, false⟩ : Match).score =
      wrapI32 (((4 : Nat) : Int) - ((4 : Nat) : Int) +
        (if (4 : Nat) = (4 : Nat) then 1 else 0) - (emitCopySize 4 4 : Int)) ∧
    wrapI32 (-usizeAsI32 (4 : Nat)) < (⟨0, 4, 4, -1, false⟩ : Match).score := by
  have h := C5_amended [1, 2, 3, 4, 1, 2, 3, 4] 0 4 67305985 false Match.empty 4
      ⟨0, 4, 4, -1, false⟩ (by decide) (by decide)
  simpa using h

set_option maxRecDepth 200000 in
set_option maxHeartbeats 2000000 in
/-- Claim C1: for every byte sequence `x`, decoding the result of encoding
`x` returns `Ok(x)`, and this round-trip is claimed for all four block
encoders.  The code fails the claim already for `encode` (the Fast level):
on the 32-byte input `c1Input` the byte-tail match extension compares
against a stale candidate cursor after the eight-byte-stride loop breaks,
the encoder emits a copy that is not a true match, and decoding its output
succeeds with bytes that differ from the input (`c1Wrong`). -/
theorem C1_fast_roundtrip_fails :
    (encode c1Input 200).bind decode = some (.ok c1Wrong) ∧ c1Wrong ≠ c1Input :=
  ⟨by decide, by decide⟩

set_option maxRecDepth 200000 in
set_option maxHeartbeats 2000000 in
/-- Claim C6: a leading varint above `2^32 - 1` makes `decode_len` fail
with `TooLarge` rather than `Corrupt`.  The code does the opposite: the
five-byte varint of `2^32` decodes fine, and `decode_len` returns
`Corrupt` (the `TooLarge` branch is only compiled on 32-bit hosts and even
there sits after this check). -/
theorem C6_counterexample :
    decodeVarint [128, 128, 128, 128, 16] = .ok (4294967296, 5) ∧
    4294967295 < 4294967296 ∧
    decodeLen [128, 128, 128, 128, 16] = .error .corrupt ∧
    Err.corrupt ≠ Err.tooLarge :=
  ⟨by decide, by decide, by decide, by decide⟩

/-- Claim C6 as amended: for every input whose leading varint decodes to a
value strictly greater than `2^32 - 1`, `decode_len` and `decode` fail with
`Corrupt` (not `TooLarge`). -/
theorem C6_amended (src : Bytes) (v n : Nat) (h : decodeVarint src = .ok (v, n))
    (hv : 4294967295 < v) :
    decodeLen src = .error .corrupt ∧ decode src = some (.error .corrupt) := by
  have hlen : decodeLen src = .error .corrupt := by
    unfold decodeLen
    rw [h]
    simp only [gt_iff_lt, hv, if_pos]
  refine ⟨hlen, ?_⟩
  unfold decode
  rw [hlen]

/-- `C6_amended` applied to the varint encoding of `2^32`. -/
theorem C6_amended_witness :
    decodeLen [128, 128, 128, 128, 16] = .error .corrupt ∧
    decode [128, 128, 128, 128, 16] = some (.error .corrupt) :=
  C6_amended [128, 128, 128, 128, 16] 4294967296 5 (by decide) (by decide)

set_option maxRecDepth 200000 in
set_option maxHeartbeats 2000000 in
/-- Claim C5: candidates in the Best encoder score as
`length - (s - next_emit) + (1 if s == next_emit else 0) - emit_cost`.
The source's `score_match` uses `length - s` instead of
`length - (s - next_emit)`: at the candidate
`{offset := 1, s := 10, length := 4, rep := false}` with `next_emit = 5`
the code computes `-8` while the claimed formula gives `-3`. -/
theorem C5_counterexample :
    scoreMatch ⟨1, 10, 4, 0, false⟩ 5 = -8 ∧
    scoreMatchSpec ⟨1, 10, 4, 0, false⟩ 5 = -3 ∧
    scoreMatch ⟨1, 10, 4, 0, false⟩ 5 ≠ scoreMatchSpec ⟨1, 10, 4, 0, false⟩ 5 :=
  ⟨by decide, by decide, by decide⟩

set_option maxRecDepth 1000000 in
set_option maxHeartbeats 8000000 in
/-- Claim C7: for inputs of at least 100 bytes the encoded sizes are
monotone by level (`best ≤ better ≤ fast`).  The code fails this: on the
104-byte `c7Input` the Better encoding is 46 bytes while the Fast encoding
is 44 bytes, although both decode back to the input (so the gap is not an
artifact of the invalid-copy bug of claim C1). -/
theorem C7_better_exceeds_fast :
    c7Input.length = 104 ∧
    (encode c7Input 400).map List.length = some 44 ∧
    (encodeBetter c7Input 400).map List.length = some 46 ∧
    (encode c7Input 400).bind decode = some (.ok c7Input) ∧
    (encodeBetter c7Input 400).bind decode = some (.ok c7Input) :=
  ⟨by decide, by decide, by decide, by decide, by decide⟩

set_option maxRecDepth 200000 in
set_option maxHeartbeats 2000000 in
/-- Claim C8: writing `x` through the stream `Writer` and reading the
produced stream back yields exactly `x`.  The code fails this: for
`c1Input` the writer stores the CRC of the original buffer next to the
(invalid, see C1) block encoding, the reader's decode returns different
bytes, and the read fails with a CRC-mismatch error instead of returning
the data. -/
theorem C8_stream_roundtrip_fails :
    (writeStream [c1Input] 200).bind (fun st => readAll st 50) =
      some (.error .crcMismatch) := by
  decide

set_option maxRecDepth 200000 in
set_option maxHeartbeats 2000000 in
/-- Claim C10: `Index::load` inverts `Index::append_to`.  The code fails
this: `load` adds `v / 2` to the compressed-offset predictor before
reconstructing the offset, while `append_to` updates the predictor only
after taking the delta, so the index built by `add(0, 0); add(2, 2^20)`
(with `est_block_uncomp = 0`) comes back with its second compressed offset
changed from `2` to `3`. -/
theorem C10_load_not_inverse :
    (Index.new.add 0 0).bind (fun i => i.add 2 1048576) = .ok idxC10 ∧
    idxC10.info = [⟨0, 0⟩, ⟨2, 1048576⟩] ∧
    (Index.new.load (idxC10.appendTo [] 2097152 100).2).map (fun p => p.1.info) =
      .ok [⟨0, 0⟩, ⟨3, 1048576⟩] ∧
    ([⟨0, 0⟩, ⟨3, 1048576⟩] : List IndexEntry) ≠ [⟨0, 0⟩, ⟨2, 1048576⟩] :=
  ⟨by decide, by decide, by decide, by decide⟩

set_option maxRecDepth 200000 in
set_option maxHeartbeats 2000000 in
/-- Claim C9: `Index::find(u)` returns an entry of the stored set whose
uncompressed offset is at most `u` (the largest such).  The code fails the
"entry of the stored set" part: when no stored entry lies at or below `u`,
the linear path returns the sentinel pair `(0, 0)`, which is not a stored
entry.  Here the single stored entry is `(7, 5)` (accepted by `add`) and
`find 0` returns `(0, 0)`. -/
theorem C9_counterexample :
    Index.new.add 7 5 = .ok ⟨-1, -1, [⟨7, 5⟩], 0⟩ ∧
    (Index.find ⟨10, -1, [⟨7, 5⟩], 0⟩ 0) = .ok (0, 0) ∧
    ∀ e ∈ ([⟨7, 5⟩] : List IndexEntry),
      (e.compressedOffset, e.uncompressedOffset) ≠ ((0 : Int), (0 : Int)) :=
  ⟨by decide, by decide, by decide⟩


end MinLZ
